import Mathlib

/-!
# Linked-list queue (`queue.c`)

A shallow embedding of the singly linked queue of `queue.c` and a verification
of its contract.

## Memory model

* A pointer to a list element is an `Option Nat`: `none` is `NULL`, `some a` is
  the address `a`.
* The heap of list elements is a list of cells indexed by address.  A cell is
  `some e` while the element is allocated and `none` once it has been freed.
  `malloc` always hands out the next unused address, so a freed address is
  never reused and a dangling pointer stays recognisable.
* Every access through a pointer goes through `deref`/`setNext`, which fail on
  `NULL` and on a freed or unallocated address.  An operation returns `none`
  exactly when the C code would dereference such a pointer or write past the
  end of the caller's buffer (undefined behaviour), or when a loop runs out of
  fuel.  Loops and the recursion of
  `merge_sort` are driven by a fuel argument; the public operations supply the
  number of heap cells, which bounds the length of every acyclic chain.
* A C string is the list of its bytes before the terminating zero byte;
  `strlen` is the length of that list and `strcmp` its byte-wise lexicographic
  comparison.
* `queue.h` is not part of the sources; the element and queue records are
  reconstructed from the field accesses in `queue.c`, and the `size` field is
  an integer without a width.
-/

namespace Queue

/-! ## Data model -/

/-- A list element: the stored string and the link to the next element. -/
structure list_ele_t where
  value : List Nat
  next : Option Nat
deriving DecidableEq, Repr

/-- The queue record: head and tail references and the element count. -/
structure queue_t where
  head : Option Nat
  tail : Option Nat
  size : Int
deriving DecidableEq, Repr

/-- The heap of list elements; `none` marks a freed cell. -/
abbrev Heap := List (Option list_ele_t)

/-- The program state: the element heap and the queue the caller holds
(`none` when the caller's queue pointer is `NULL`). -/
structure State where
  heap : Heap
  q : Option queue_t
deriving DecidableEq, Repr

/-- Read the element a pointer refers to; fails on `NULL`, on a freed cell and
on an address that was never allocated. -/
def deref (h : Heap) (p : Option Nat) : Option list_ele_t :=
  match p with
  | none => none
  | some a => (h[a]?).join

/-- The assignment `p->next = n`. -/
def setNext (h : Heap) (p : Option Nat) (n : Option Nat) : Option Heap :=
  match p with
  | none => none
  | some a =>
    match deref h (some a) with
    | none => none
    | some e => some (h.set a (some { e with next := n }))

/-- The call `free(p)` for an element pointer (the string is released with it). -/
def free (h : Heap) (p : Option Nat) : Option Heap :=
  match p with
  | none => none
  | some a =>
    match deref h (some a) with
    | none => none
    | some _ => some (h.set a none)

/-! ## C library functions -/

/-- Number of values of `size_t` (a 64-bit platform). -/
def SIZE_MOD : Nat := 2 ^ 64

/-- Length of a string. -/
def strlen (s : List Nat) : Nat := s.length

/-- Byte-wise lexicographic comparison; only the sign of the result is
specified by the C standard. -/
def strcmp : List Nat → List Nat → Int
  | [], [] => 0
  | [], _ :: _ => -1
  | _ :: _, [] => 1
  | a :: as, b :: bs => if a < b then -1 else if b < a then 1 else strcmp as bs

/-- The call `memset(buf, c, n)` on a buffer of `buf.length` bytes; fails when
it would write past the end of the buffer. -/
def memset (buf : List Nat) (c : Nat) (n : Nat) : Option (List Nat) :=
  if n ≤ buf.length then some (List.replicate n c ++ buf.drop n) else none

/-- The call `strncpy(dst, src, n)`: exactly `n` bytes are written, the first
`min n (strlen src)` from `src` and zero bytes after them; fails when it would
write past the end of `dst`. -/
def strncpy (dst : List Nat) (src : List Nat) (n : Nat) : Option (List Nat) :=
  if n ≤ dst.length then
    some (src.take n ++ List.replicate (n - strlen src) 0 ++ dst.drop n)
  else none

/-- The bytes of a string literal. -/
def bytes (s : String) : List Nat := s.toList.map Char.toNat

/-! ## Queue operations -/

/-- Create an empty queue; `ok` tells whether `malloc` succeeded. -/
def q_new (ok : Bool) : State :=
  if ok then { heap := [], q := some { head := none, tail := none, size := 0 } }
  else { heap := [], q := none }

/-- Insert a copy of `s` at the head.  `okEle` and `okVal` tell whether the
allocation of the element and of its string succeeded.  When the string
allocation fails the element is released again, which leaves the heap as it
was. -/
def q_insert_head (st : State) (s : List Nat) (okEle okVal : Bool) : Bool × State :=
  match st.q with
  | none => (false, st)
  | some q =>
    if !okEle then (false, st)
    else if !okVal then (false, st)
    else
      let newHead := st.heap.length
      let h1 := st.heap ++ [some { value := s, next := q.head }]
      let head := some newHead
      let tail := if q.tail = none then head else q.tail
      (true, { heap := h1, q := some { head := head, tail := tail, size := q.size + 1 } })

/-- Insert a copy of `s` at the tail. -/
def q_insert_tail (st : State) (s : List Nat) (okEle okVal : Bool) : Option (Bool × State) :=
  match st.q with
  | none => some (false, st)
  | some q =>
    if !okEle then some (false, st)
    else if !okVal then some (false, st)
    else
      let tail := st.heap.length
      let h1 := st.heap ++ [some { value := s, next := none }]
      if q.tail = none then
        some (true, { heap := h1,
                      q := some { head := some tail, tail := some tail, size := q.size + 1 } })
      else
        match setNext h1 q.tail (some tail) with
        | none => none
        | some h2 =>
          some (true, { heap := h2,
                        q := some { head := q.head, tail := some tail, size := q.size + 1 } })

/-- The copy of the removed string into the caller's buffer `sp`, whose real
capacity is `sp.length`. -/
def copy_out (sp : List Nat) (value : List Nat) (bufsize : Nat) : Option (List Nat) :=
  let realbufsize :=
    if bufsize > strlen value then strlen value else (bufsize + SIZE_MOD - 1) % SIZE_MOD
  match memset sp 0 ((realbufsize + 1) % SIZE_MOD) with
  | none => none
  | some sp1 => strncpy sp1 value realbufsize

/-- Remove the head element.  `sp` is the caller's buffer (`none` for `NULL`)
and `bufsize` the capacity passed along.  Returns the flag, the new state and
the buffer after the call. -/
def q_remove_head (st : State) (sp : Option (List Nat)) (bufsize : Nat) :
    Option (Bool × State × Option (List Nat)) :=
  match st.q with
  | none => some (false, st, sp)
  | some q =>
    if q.head = none then some (false, st, sp)
    else
      match deref st.heap q.head with
      | none => none
      | some e =>
        let out :=
          match sp with
          | none => some none
          | some buf => (copy_out buf e.value bufsize).map some
        match out, free st.heap q.head with
        | some sp1, some h1 =>
          some (true, { heap := h1, q := some { head := e.next, tail := q.tail, size := q.size - 1 } },
                sp1)
        | _, _ => none

/-- Number of elements. -/
def q_size (st : State) : Int :=
  match st.q with
  | none => 0
  | some q => q.size

/-- The loop of `q_reverse`: `head` is `q->head`; returns the heap and the
final value of `prev`. -/
def reverse_loop : Nat → Heap → Option Nat → Option Nat → Option (Heap × Option Nat)
  | fuel, h, head, prev =>
    if head = none then some (h, prev)
    else
      match fuel with
      | 0 => none
      | fuel + 1 =>
        match deref h head with
        | none => none
        | some e =>
          match setNext h head prev with
          | none => none
          | some h1 => reverse_loop fuel h1 e.next head

/-- Reverse the chain in place. -/
def q_reverse (st : State) : Option State :=
  match st.q with
  | none => some st
  | some q =>
    if q.head = none then some st
    else
      let tmp := q.head
      match reverse_loop st.heap.length st.heap q.head none with
      | none => none
      | some (h1, _) =>
        some { heap := h1, q := some { head := q.tail, tail := tmp, size := q.size } }

/-- The `while (l1 && l2)` loop of `merge`; returns the heap and the final
`tmp`, `l1` and `l2`. -/
def merge_loop : Nat → Heap → Option Nat → Option Nat → Option Nat →
    Option (Heap × Option Nat × Option Nat × Option Nat)
  | fuel, h, tmp, l1, l2 =>
    if l1 = none ∨ l2 = none then some (h, tmp, l1, l2)
    else
      match fuel with
      | 0 => none
      | fuel + 1 =>
        match deref h l1, deref h l2 with
        | some e1, some e2 =>
          if ¬ (strcmp e1.value e2.value ≥ 0) then
            match setNext h tmp l1 with
            | none => none
            | some h1 =>
              match deref h1 l1, deref h1 tmp with
              | some e1', some t => merge_loop fuel h1 t.next e1'.next l2
              | _, _ => none
          else
            match setNext h tmp l2 with
            | none => none
            | some h1 =>
              match deref h1 l2, deref h1 tmp with
              | some e2', some t => merge_loop fuel h1 t.next l1 e2'.next
              | _, _ => none
        | _, _ => none

/-- The two assignments after the loop of `merge`:
`if (!l1) tmp->next = l2; if (!l2) tmp->next = l1;`. -/
def merge_finish (h : Heap) (tmp l1 l2 : Option Nat) : Option Heap :=
  match (if l1 = none then setNext h tmp l2 else some h) with
  | none => none
  | some h1 => if l2 = none then setNext h1 tmp l1 else some h1

/-- Merge two chains; returns the heap and the head of the merged chain. -/
def merge (fuel : Nat) (h : Heap) (l1 l2 : Option Nat) : Option (Heap × Option Nat) :=
  if l2 = none then some (h, l1)
  else if l1 = none then some (h, l2)
  else
    match deref h l1, deref h l2 with
    | some e1, some e2 =>
      let first :=
        if ¬ (strcmp e1.value e2.value ≥ 0) then (l1, e1.next, l2) else (l2, l1, e2.next)
      let head := first.1
      match merge_loop fuel h first.1 first.2.1 first.2.2 with
      | none => none
      | some (h1, tmp, l1', l2') =>
        match merge_finish h1 tmp l1' l2' with
        | none => none
        | some h2 => some (h2, head)
    | _, _ => none

/-- The fast/slow walk of `merge_sort`:
`while (fast && fast->next) { slow = slow->next; fast = fast->next->next; }`;
returns the final `slow`. -/
def split_loop : Nat → Heap → Option Nat → Option Nat → Option (Option Nat)
  | fuel, h, slow, fast =>
    if fast = none then some slow
    else
      match deref h fast with
      | none => none
      | some ef =>
        if ef.next = none then some slow
        else
          match fuel with
          | 0 => none
          | fuel + 1 =>
            match deref h slow, deref h ef.next with
            | some es, some efn => split_loop fuel h es.next efn.next
            | _, _ => none

/-- Recursive merge sort of the chain starting at `head`. -/
def merge_sort : Nat → Heap → Option Nat → Option (Heap × Option Nat)
  | fuel, h, head =>
    if head = none then some (h, head)
    else
      match deref h head with
      | none => none
      | some e =>
        if e.next = none then some (h, head)
        else
          match fuel with
          | 0 => none
          | fuel + 1 =>
            match split_loop h.length h head e.next with
            | none => none
            | some slow =>
              match deref h slow with
              | none => none
              | some es =>
                let fast := es.next
                match setNext h slow none with
                | none => none
                | some h1 =>
                  match merge_sort fuel h1 head with
                  | none => none
                  | some (h2, l1) =>
                    match merge_sort fuel h2 fast with
                    | none => none
                    | some (h3, l2) => merge h3.length h3 l1 l2

/-- The walk `while (tmp->next) tmp = tmp->next;` of `q_sort`. -/
def last_loop : Nat → Heap → Option Nat → Option (Option Nat)
  | fuel, h, tmp =>
    match deref h tmp with
    | none => none
    | some e =>
      if e.next = none then some tmp
      else
        match fuel with
        | 0 => none
        | fuel + 1 => last_loop fuel h e.next

/-- Sort the chain in ascending order. -/
def q_sort (st : State) : Option State :=
  match st.q with
  | none => some st
  | some q =>
    if q.head = none then some st
    else
      match deref st.heap q.head with
      | none => none
      | some e =>
        if e.next = none then some st
        else
          match merge_sort st.heap.length st.heap q.head with
          | none => none
          | some (h1, head) =>
            match last_loop h1.length h1 head with
            | none => none
            | some tmp => some { heap := h1, q := some { head := head, tail := tmp, size := q.size } }

/-! ## Drivers: sequences of public operations -/

/-- One call of a public operation, with the outcome of its allocations. -/
inductive Op where
  | insert_head (s : List Nat) (okEle okVal : Bool)
  | insert_tail (s : List Nat) (okEle okVal : Bool)
  | remove_head (sp : Option (List Nat)) (bufsize : Nat)
  | reverse
  | sort
deriving DecidableEq, Repr

/-- Perform one call.  The result holds the new state, the returned flag
(`none` for the `void` operations) and the caller's buffer after a
`q_remove_head`. -/
def step (st : State) : Op → Option (State × Option Bool × Option (List Nat))
  | Op.insert_head s okEle okVal =>
    let r := q_insert_head st s okEle okVal
    some (r.2, some r.1, none)
  | Op.insert_tail s okEle okVal =>
    match q_insert_tail st s okEle okVal with
    | none => none
    | some r => some (r.2, some r.1, none)
  | Op.remove_head sp bufsize =>
    match q_remove_head st sp bufsize with
    | none => none
    | some r => some (r.2.1, some r.1, r.2.2)
  | Op.reverse =>
    match q_reverse st with
    | none => none
    | some st1 => some (st1, none, none)
  | Op.sort =>
    match q_sort st with
    | none => none
    | some st1 => some (st1, none, none)

/-- Perform a sequence of calls, collecting the results. -/
def run : State → List Op → Option (State × List (Option Bool × Option (List Nat)))
  | st, [] => some (st, [])
  | st, op :: ops =>
    match step st op with
    | none => none
    | some (st1, r) =>
      match run st1 ops with
      | none => none
      | some (st2, rs) => some (st2, r :: rs)

/-- Whether a call is an insertion. -/
def Op.isInsert : Op → Bool
  | Op.insert_head _ _ _ => true
  | Op.insert_tail _ _ _ => true
  | _ => false

/-- Whether a call is a removal. -/
def Op.isRemove : Op → Bool
  | Op.remove_head _ _ => true
  | _ => false

/-- Number of calls of the selected kind that returned `true`. -/
def successes (kind : Op → Bool) (ops : List Op)
    (rs : List (Option Bool × Option (List Nat))) : Nat :=
  ((ops.zip rs).filter (fun x => kind x.1 && x.2.1 == some true)).length

/-! ## Abstraction: the chain of a heap -/

/-- Walk the links from `p` and compare with the expected elements, each given
by its address and its value; the walk must end at `NULL`. -/
def isChain (h : Heap) : Option Nat → List (Nat × List Nat) → Bool
  | p, [] => p.isNone
  | p, x :: rest =>
    match deref h p with
    | none => false
    | some e => p == some x.1 && e.value == x.2 && isChain h e.next rest

/-- The chain starting at `p` consists of the elements `l`, in that order. -/
def Chain (h : Heap) (p : Option Nat) (l : List (Nat × List Nat)) : Prop :=
  isChain h p l = true

instance (h : Heap) (p : Option Nat) (l : List (Nat × List Nat)) : Decidable (Chain h p l) :=
  inferInstanceAs (Decidable (isChain h p l = true))

/-- Address of the first element of a chain (`NULL` for the empty chain). -/
def firstAddr (l : List (Nat × List Nat)) : Option Nat := l.head?.map Prod.fst

/-- Address of the last element of a chain (`NULL` for the empty chain). -/
def lastAddr (l : List (Nat × List Nat)) : Option Nat := l.getLast?.map Prod.fst

/-- A well-formed queue holding the chain `l`: head and tail refer to the first
and the last element of `l`, the count is its length, and the links of the heap
spell out `l`. -/
def WF (st : State) (l : List (Nat × List Nat)) : Prop :=
  st.q = some { head := firstAddr l, tail := lastAddr l, size := l.length } ∧
    Chain st.heap (firstAddr l) l

instance (st : State) (l : List (Nat × List Nat)) : Decidable (WF st l) :=
  inferInstanceAs (Decidable (_ ∧ _))

/-- A queue whose head chain is `l` and whose count is the length of `l`;
nothing is said about the tail reference. -/
def HeadChain (st : State) (l : List (Nat × List Nat)) : Prop :=
  ∃ t, st.q = some { head := firstAddr l, tail := t, size := l.length } ∧
    Chain st.heap (firstAddr l) l

/-- The structural invariant of the data model: the count is zero exactly when
the head is absent and exactly when the tail is absent, the chain from the head
has exactly `count` elements, and the tail is the last element of that chain. -/
def Inv (st : State) : Prop :=
  ∃ q, st.q = some q ∧ (q.size = 0 ↔ q.head = none) ∧ (q.size = 0 ↔ q.tail = none) ∧
    ∃ l, Chain st.heap q.head l ∧ (l.length : Int) = q.size ∧ q.tail = lastAddr l

/-- The values of a chain, in order. -/
def values (l : List (Nat × List Nat)) : List (List Nat) := l.map Prod.snd

/-- The addresses of a chain, in order. -/
def addrs (l : List (Nat × List Nat)) : List Nat := l.map Prod.fst

/-- Ascending order of two values under `strcmp`. -/
def le (x y : List Nat) : Prop := strcmp x y ≤ 0

instance (x y : List Nat) : Decidable (le x y) := inferInstanceAs (Decidable (_ ≤ _))

/-- Every adjacent pair of the chain is in ascending order. -/
def Ascending (l : List (Nat × List Nat)) : Prop := List.Chain' le (values l)

/-- The chain produced by `merge` from the chains `as` and `bs`, read off the
comparisons of its loop: the head of `as` is taken only when it is strictly
smaller than the head of `bs`. -/
def mergeL : List (Nat × List Nat) → List (Nat × List Nat) → List (Nat × List Nat)
  | [], bs => bs
  | a :: as, [] => a :: as
  | a :: as, b :: bs =>
    if ¬ (strcmp a.2 b.2 ≥ 0) then a :: mergeL as (b :: bs) else b :: mergeL (a :: as) bs
termination_by as bs => as.length + bs.length

/-- Two heaps agree outside the addresses `s`, and have the same number of
cells. -/
def Frame (h h' : Heap) (s : List Nat) : Prop :=
  h'.length = h.length ∧ ∀ a, a ∉ s → deref h' (some a) = deref h (some a)

/-! ## Parts of the operations, named for the statements about them -/

/-- The copy length of `q_remove_head`:
`(bufsize > strlen(value)) ? strlen(value) : bufsize - 1` in `size_t`
arithmetic. -/
def realbufsize (value : List Nat) (bufsize : Nat) : Nat :=
  if bufsize > strlen value then strlen value else (bufsize + SIZE_MOD - 1) % SIZE_MOD

/-- The length passed to `memset` by `q_remove_head`: `realbufsize + 1` in
`size_t` arithmetic. -/
def fill_length (value : List Nat) (bufsize : Nat) : Nat :=
  (realbufsize value bufsize + 1) % SIZE_MOD

/-- The split phase of `merge_sort` on a chain with at least two elements: the
fast/slow walk from `head`, then `fast = slow->next; slow->next = NULL;`.
Returns the heap after the cut and `fast`, the head of the second sub-chain;
`head` stays the head of the first. -/
def merge_sort_split (h : Heap) (head : Option Nat) : Option (Heap × Option Nat) :=
  match deref h head with
  | none => none
  | some e =>
    match split_loop h.length h head e.next with
    | none => none
    | some slow =>
      match deref h slow with
      | none => none
      | some es =>
        match setNext h slow none with
        | none => none
        | some h1 => some (h1, es.next)

/-! ## Facts about `strcmp` and the heap -/

theorem strcmp_self (a : List Nat) : strcmp a a = 0 := by
  induction a with
  | nil => rfl
  | cons x xs ih => simp [strcmp, ih]

theorem strcmp_swap (a b : List Nat) : strcmp b a = - strcmp a b := by
  induction a generalizing b with
  | nil => cases b <;> simp [strcmp]
  | cons x xs ih =>
    cases b with
    | nil => simp [strcmp]
    | cons y ys =>
      simp only [strcmp]
      split_ifs <;> first | omega | simp [ih]

theorem strcmp_eq_zero {a b : List Nat} (h : strcmp a b = 0) : a = b := by
  induction a generalizing b with
  | nil => cases b <;> simp [strcmp] at h ⊢
  | cons x xs ih =>
    cases b with
    | nil => simp [strcmp] at h
    | cons y ys =>
      simp only [strcmp] at h
      by_cases h1 : x < y
      · simp [h1] at h
      · by_cases h2 : y < x
        · simp [h1, h2] at h
        · simp only [h1, h2, if_false] at h
          have : x = y := by omega
          rw [this, ih h]

theorem strcmp_range (a b : List Nat) : strcmp a b = -1 ∨ strcmp a b = 0 ∨ strcmp a b = 1 := by
  induction a generalizing b with
  | nil => cases b <;> simp [strcmp]
  | cons x xs ih =>
    cases b with
    | nil => simp [strcmp]
    | cons y ys =>
      simp only [strcmp]
      split_ifs <;> simp [ih]

theorem strcmp_le_trans {a b c : List Nat} (h1 : strcmp a b ≤ 0) (h2 : strcmp b c ≤ 0) :
    strcmp a c ≤ 0 := by
  induction a generalizing b c with
  | nil => cases c <;> simp [strcmp]
  | cons x xs ih =>
    cases b with
    | nil => simp [strcmp] at h1
    | cons y ys =>
      cases c with
      | nil => simp [strcmp] at h2
      | cons z zs =>
        simp only [strcmp] at h1 h2 ⊢
        split_ifs at h1 h2 ⊢ <;> first | omega | exact ih h1 h2

theorem deref_lt {h : Heap} {a : Nat} {e : list_ele_t} (hd : deref h (some a) = some e) :
    a < h.length := by
  by_contra hlt
  have : h[a]? = none := List.getElem?_eq_none (by omega)
  simp [deref, this] at hd

theorem deref_eq_some {h : Heap} {a : Nat} {e : list_ele_t} :
    deref h (some a) = some e ↔ h[a]? = some (some e) := by
  simp only [deref]
  cases h[a]? with
  | none => simp
  | some c => cases c <;> simp

theorem deref_set (h : Heap) (a b : Nat) (c : Option list_ele_t) (ha : a < h.length) :
    deref (h.set a c) (some b) = if b = a then c else deref h (some b) := by
  simp only [deref]
  by_cases hb : b = a
  · subst hb
    simp [ha]
  · simp [hb, List.getElem?_set_ne (Ne.symm hb)]

theorem deref_append_left (h l : Heap) (a : Nat) (ha : a < h.length) :
    deref (h ++ l) (some a) = deref h (some a) := by
  simp [deref, List.getElem?_append_left ha]

theorem deref_append_new (h : Heap) (c : Option list_ele_t) :
    deref (h ++ [c]) (some h.length) = c := by
  simp [deref]

theorem setNext_some {h h' : Heap} {p n : Option Nat} (hs : setNext h p n = some h') :
    ∃ a e, p = some a ∧ deref h (some a) = some e ∧
      h' = h.set a (some { e with next := n }) := by
  cases p with
  | none => simp [setNext] at hs
  | some a =>
    simp only [setNext] at hs
    cases hd : deref h (some a) with
    | none => simp [hd] at hs
    | some e =>
      simp [hd] at hs
      exact ⟨a, e, rfl, hd, hs.symm⟩

theorem setNext_of_deref {h : Heap} {a : Nat} {e : list_ele_t} (n : Option Nat)
    (hd : deref h (some a) = some e) :
    setNext h (some a) n = some (h.set a (some { e with next := n })) := by
  simp [setNext, hd]

/-! ## Facts about chains -/

theorem chain_nil {h : Heap} {p : Option Nat} : Chain h p [] ↔ p = none := by
  simp [Chain, isChain]

theorem chain_cons {h : Heap} {p : Option Nat} {x : Nat × List Nat}
    {l : List (Nat × List Nat)} :
    Chain h p (x :: l) ↔
      p = some x.1 ∧ ∃ n, deref h (some x.1) = some { value := x.2, next := n } ∧ Chain h n l := by
  simp only [Chain, isChain]
  constructor
  · intro hc
    cases hd : deref h p with
    | none => simp [hd] at hc
    | some e =>
      simp only [hd, Bool.and_eq_true, beq_iff_eq] at hc
      obtain ⟨⟨hp, hv⟩, hr⟩ := hc
      subst hp
      refine ⟨rfl, e.next, ?_, hr⟩
      rw [hd, ← hv]
  · rintro ⟨hp, n, hd, hr⟩
    subst hp
    simp [hd, hr]

theorem chain_frame {h h' : Heap} {p : Option Nat} {l : List (Nat × List Nat)}
    (hc : Chain h p l) (hf : ∀ a ∈ addrs l, deref h' (some a) = deref h (some a)) :
    Chain h' p l := by
  induction l generalizing p with
  | nil => exact chain_nil.2 (chain_nil.1 hc)
  | cons x l ih =>
    obtain ⟨hp, n, hd, hr⟩ := chain_cons.1 hc
    refine chain_cons.2 ⟨hp, n, ?_, ih hr ?_⟩
    · rw [hf x.1 (by simp [addrs]), hd]
    · intro a ha
      exact hf a (by simp only [addrs, List.map_cons, List.mem_cons] at ha ⊢; exact Or.inr ha)

theorem chain_functional {h : Heap} {p : Option Nat} {l1 l2 : List (Nat × List Nat)}
    (h1 : Chain h p l1) (h2 : Chain h p l2) : l1 = l2 := by
  induction l1 generalizing p l2 with
  | nil =>
    cases l2 with
    | nil => rfl
    | cons y l2 =>
      have := chain_nil.1 h1
      have := (chain_cons.1 h2).1
      simp_all
  | cons x l1 ih =>
    cases l2 with
    | nil =>
      have := chain_nil.1 h2
      have := (chain_cons.1 h1).1
      simp_all
    | cons y l2 =>
      obtain ⟨hp, n, hd, hr⟩ := chain_cons.1 h1
      obtain ⟨hp', n', hd', hr'⟩ := chain_cons.1 h2
      have hxy : x.1 = y.1 := by rw [hp] at hp'; exact Option.some.inj hp'
      rw [hxy, hd'] at hd
      have hv : y.2 = x.2 := by injection hd with hd; injection hd
      have hn : n' = n := by injection hd with hd; injection hd
      subst hn
      have : x = y := Prod.ext hxy hv.symm
      rw [this, ih hr hr']

theorem chain_suffix {h : Heap} {p : Option Nat} {l1 l2 : List (Nat × List Nat)}
    (hc : Chain h p (l1 ++ l2)) : ∃ q, Chain h q l2 := by
  induction l1 generalizing p with
  | nil => exact ⟨p, hc⟩
  | cons x l1 ih =>
    obtain ⟨_, n, _, hr⟩ := chain_cons.1 hc
    exact ih hr

theorem chain_head {h : Heap} {p : Option Nat} {l : List (Nat × List Nat)}
    (hc : Chain h p l) : p = firstAddr l := by
  cases l with
  | nil => simpa [firstAddr] using chain_nil.1 hc
  | cons x l => simpa [firstAddr] using (chain_cons.1 hc).1

theorem chain_nodup {h : Heap} {p : Option Nat} {l : List (Nat × List Nat)}
    (hc : Chain h p l) : (addrs l).Nodup := by
  induction l generalizing p with
  | nil => simp [addrs]
  | cons x l ih =>
    obtain ⟨hp, n, hd, hr⟩ := chain_cons.1 hc
    simp only [addrs, List.map_cons, List.nodup_cons]
    refine ⟨?_, ih hr⟩
    intro hmem
    obtain ⟨y, hy, hyx⟩ := List.mem_map.1 hmem
    obtain ⟨l1, l2, hl⟩ := List.append_of_mem hy
    rw [hl] at hr
    obtain ⟨q, hq⟩ := chain_suffix hr
    have hq' := (chain_cons.1 hq).1
    rw [hyx, ← hp] at hq'
    subst hq'
    have := chain_functional hc hq
    have hlen := congrArg List.length this
    rw [hl] at hlen
    simp at hlen
    omega

theorem chain_lt {h : Heap} {p : Option Nat} {l : List (Nat × List Nat)}
    (hc : Chain h p l) : ∀ a ∈ addrs l, a < h.length := by
  induction l generalizing p with
  | nil => simp [addrs]
  | cons x l ih =>
    obtain ⟨_, n, hd, hr⟩ := chain_cons.1 hc
    intro a ha
    simp only [addrs, List.map_cons, List.mem_cons] at ha
    rcases ha with ha | ha
    · subst ha; exact deref_lt hd
    · exact ih hr a ha

theorem chain_length_le {h : Heap} {p : Option Nat} {l : List (Nat × List Nat)}
    (hc : Chain h p l) : l.length ≤ h.length := by
  have h1 : (addrs l) ⊆ List.range h.length := by
    intro a ha
    exact List.mem_range.2 (chain_lt hc a ha)
  have h2 := (List.subperm_of_subset (chain_nodup hc) h1).length_le
  simpa [addrs] using h2

/-! ## Frames and the loop of `q_reverse` -/

theorem frame_refl (h : Heap) (s : List Nat) : Frame h h s := ⟨rfl, fun _ _ => rfl⟩

theorem frame_trans {h1 h2 h3 : Heap} {s1 s2 s : List Nat} (f1 : Frame h1 h2 s1)
    (f2 : Frame h2 h3 s2) (hs1 : s1 ⊆ s) (hs2 : s2 ⊆ s) : Frame h1 h3 s := by
  refine ⟨f2.1.trans f1.1, fun a ha => ?_⟩
  rw [f2.2 a (fun hm => ha (hs2 hm)), f1.2 a (fun hm => ha (hs1 hm))]

theorem frame_mono {h1 h2 : Heap} {s1 s : List Nat} (f1 : Frame h1 h2 s1) (hs : s1 ⊆ s) :
    Frame h1 h2 s :=
  ⟨f1.1, fun a ha => f1.2 a (fun hm => ha (hs hm))⟩

theorem frame_set {h : Heap} {a : Nat} (c : Option list_ele_t) (ha : a < h.length) :
    Frame h (h.set a c) [a] := by
  refine ⟨by simp, fun b hb => ?_⟩
  rw [deref_set h a b c ha]
  simp at hb
  simp [hb]

theorem chain_of_frame {h h' : Heap} {p : Option Nat} {l : List (Nat × List Nat)}
    {s : List Nat} (hc : Chain h p l) (hf : Frame h h' s) (hd : ∀ a ∈ addrs l, a ∉ s) :
    Chain h' p l :=
  chain_frame hc (fun a ha => hf.2 a (hd a ha))

/-- Facts about `setNext` on a live cell, bundled. -/
theorem setNext_spec {h : Heap} {a : Nat} {v : List Nat} {n0 : Option Nat} (n : Option Nat)
    (hd : deref h (some a) = some { value := v, next := n0 }) :
    ∃ h', setNext h (some a) n = some h' ∧
      deref h' (some a) = some { value := v, next := n } ∧ Frame h h' [a] := by
  refine ⟨_, setNext_of_deref n hd, ?_, frame_set _ (deref_lt hd)⟩
  rw [deref_set _ _ _ _ (deref_lt hd)]
  simp

theorem firstAddr_cons (x : Nat × List Nat) (l : List (Nat × List Nat)) :
    firstAddr (x :: l) = some x.1 := rfl

theorem reverse_loop_spec (L : List (Nat × List Nat)) :
    ∀ (h : Heap) (head prev : Option Nat) (P : List (Nat × List Nat)) (fuel : Nat),
      Chain h head L → Chain h prev P → (∀ a ∈ addrs L, a ∉ addrs P) → L.length ≤ fuel →
      ∃ h', reverse_loop fuel h head prev = some (h', firstAddr (L.reverse ++ P)) ∧
        Chain h' (firstAddr (L.reverse ++ P)) (L.reverse ++ P) ∧ Frame h h' (addrs L) := by
  induction L with
  | nil =>
    intro h head prev P fuel hc hp _ _
    have hh := chain_nil.1 hc
    subst hh
    have hprev := chain_head hp
    refine ⟨h, ?_, ?_, frame_refl _ _⟩
    · rw [reverse_loop.eq_def]; simp [hprev]
    · simpa [← hprev] using hp
  | cons x L ih =>
    intro h head prev P fuel hc hp hdis hfuel
    obtain ⟨hh, n, hd, hr⟩ := chain_cons.1 hc
    subst hh
    have hnd := chain_nodup hc
    simp only [addrs, List.map_cons, List.nodup_cons] at hnd
    obtain ⟨h1, hs1, hd1, hf1⟩ := setNext_spec prev hd
    have hxP : x.1 ∉ addrs P := hdis x.1 (by simp [addrs])
    have hc1 : Chain h1 n L := chain_of_frame hr hf1 (by
      intro a ha; simp only [List.mem_singleton]; rintro rfl; exact hnd.1 ha)
    have hp1 : Chain h1 (some x.1) (x :: P) := by
      refine chain_cons.2 ⟨rfl, prev, hd1, chain_of_frame hp hf1 ?_⟩
      intro a ha; simp only [List.mem_singleton]; rintro rfl; exact hxP ha
    cases fuel with
    | zero => simp at hfuel
    | succ fuel =>
      have hdis' : ∀ a ∈ addrs L, a ∉ addrs (x :: P) := by
        intro a ha
        simp only [addrs, List.map_cons, List.mem_cons, not_or]
        refine ⟨?_, hdis a (by simp only [addrs, List.map_cons, List.mem_cons]; exact Or.inr ha)⟩
        rintro rfl; exact hnd.1 ha
      obtain ⟨h', hrun, hch, hfr⟩ :=
        ih h1 n (some x.1) (x :: P) fuel hc1 hp1 hdis' (by simp at hfuel; omega)
      have heq : (x :: L).reverse ++ P = L.reverse ++ x :: P := by simp
      refine ⟨h', ?_, ?_, ?_⟩
      · rw [reverse_loop.eq_def]
        simp only [hd, hs1, heq]
        simpa using hrun
      · rw [heq]; exact hch
      · refine frame_trans hf1 hfr ?_ ?_
        · simp [addrs]
        · intro a ha; simp only [addrs, List.map_cons, List.mem_cons]; exact Or.inr ha

/-! ## `q_reverse` on a well-formed queue -/

theorem heap_ext {h h' : Heap} (hl : h'.length = h.length)
    (hd : ∀ a, deref h' (some a) = deref h (some a)) : h' = h := by
  apply List.ext_getElem hl
  intro a h1 h2
  have := hd a
  simpa [deref, List.getElem?_eq_getElem h1, List.getElem?_eq_getElem h2] using this

theorem chain_deref {h : Heap} {p : Option Nat} {l : List (Nat × List Nat)}
    (hc : Chain h p l) : ∀ x ∈ l, ∃ n, deref h (some x.1) = some { value := x.2, next := n } := by
  induction l generalizing p with
  | nil => simp
  | cons y l ih =>
    obtain ⟨_, n, hd, hr⟩ := chain_cons.1 hc
    intro x hx
    rcases List.mem_cons.1 hx with hx | hx
    · subst hx; exact ⟨n, hd⟩
    · exact ih hr x hx

theorem chain_deref_eq {h h' : Heap} {p : Option Nat} {l : List (Nat × List Nat)}
    (hc : Chain h p l) (hc' : Chain h' p l) :
    ∀ a ∈ addrs l, deref h' (some a) = deref h (some a) := by
  induction l generalizing p with
  | nil => simp [addrs]
  | cons y l ih =>
    obtain ⟨_, n, hd, hr⟩ := chain_cons.1 hc
    obtain ⟨_, n', hd', hr'⟩ := chain_cons.1 hc'
    have hn : n' = firstAddr l := chain_head hr'
    have hn' : n = firstAddr l := chain_head hr
    subst hn hn'
    intro a ha
    simp only [addrs, List.map_cons, List.mem_cons] at ha
    rcases ha with ha | ha
    · subst ha; rw [hd, hd']
    · exact ih hr hr' a ha

theorem chain_splice {h h' : Heap} {x : Nat × List Nat} {l2 R : List (Nat × List Nat)}
    {q : Option Nat} (l1 : List (Nat × List Nat)) :
    ∀ {p : Option Nat}, Chain h p (l1 ++ x :: l2) →
      deref h' (some x.1) = some { value := x.2, next := q } →
      (∀ a ∈ addrs l1, deref h' (some a) = deref h (some a)) →
      Chain h' q R → Chain h' p (l1 ++ x :: R) := by
  induction l1 with
  | nil =>
    intro p hc hd _ hR
    exact chain_cons.2 ⟨(chain_cons.1 hc).1, q, hd, hR⟩
  | cons y l1 ih =>
    intro p hc hd hf hR
    obtain ⟨hp, n, hdy, hr⟩ := chain_cons.1 hc
    refine chain_cons.2 ⟨hp, n, ?_, ih hr hd ?_ hR⟩
    · rw [hf y.1 (by simp [addrs]), hdy]
    · intro a ha
      exact hf a (by simp only [addrs, List.map_cons, List.mem_cons] at ha ⊢; exact Or.inr ha)

theorem firstAddr_reverse (l : List (Nat × List Nat)) : firstAddr l.reverse = lastAddr l := by
  simp [firstAddr, lastAddr]

theorem lastAddr_reverse (l : List (Nat × List Nat)) : lastAddr l.reverse = firstAddr l := by
  simp [firstAddr, lastAddr]

theorem addrs_reverse (l : List (Nat × List Nat)) : addrs l.reverse = (addrs l).reverse := by
  simp [addrs]

theorem q_reverse_spec {st : State} {L : List (Nat × List Nat)} (hw : WF st L) :
    ∃ st', q_reverse st = some st' ∧ WF st' L.reverse ∧ Frame st.heap st'.heap (addrs L) ∧
      (L.length ≤ 1 → st' = st) := by
  obtain ⟨hq, hc⟩ := hw
  cases L with
  | nil =>
    refine ⟨st, ?_, ⟨by simpa using hq, by simpa using hc⟩, frame_refl _ _, fun _ => rfl⟩
    simp [q_reverse, hq, firstAddr]
  | cons x L =>
    obtain ⟨h', hrun, hch, hfr⟩ := reverse_loop_spec (x :: L) st.heap (firstAddr (x :: L)) none []
      st.heap.length hc (chain_nil.2 rfl) (by simp [addrs]) (chain_length_le hc)
    simp only [List.append_nil] at hrun hch
    refine ⟨{ heap := h', q := some { head := lastAddr (x :: L), tail := firstAddr (x :: L),
                                      size := ((x :: L).length : Nat) } }, ?_, ?_, hfr, ?_⟩
    · simp only [q_reverse, hq, hrun]
      simp [firstAddr]
    · refine ⟨?_, ?_⟩
      · rw [firstAddr_reverse, lastAddr_reverse, List.length_reverse]
      · exact hch
    · intro hlen
      have hL : L = [] := by
        cases L with
        | nil => rfl
        | cons y L => simp at hlen
      subst hL
      have hheap : h' = st.heap := by
        apply heap_ext hfr.1
        intro a
        by_cases ha : a ∈ addrs [x]
        · exact chain_deref_eq hc (by simpa [firstAddr] using hch) a ha
        · exact hfr.2 a ha
      cases st with
      | mk heap q =>
        simp only at hq hheap
        subst hheap
        simp [hq, firstAddr, lastAddr]

theorem q_reverse_twice {st : State} {L : List (Nat × List Nat)} (hw : WF st L) :
    ∃ st', q_reverse st = some st' ∧ WF st' L.reverse ∧ q_reverse st' = some st := by
  obtain ⟨st1, h1, hw1, hf1, _⟩ := q_reverse_spec hw
  obtain ⟨st2, h2, hw2, hf2, _⟩ := q_reverse_spec hw1
  refine ⟨st1, h1, hw1, ?_⟩
  rw [h2]
  simp only [List.reverse_reverse] at hw2
  have hfr : Frame st.heap st2.heap (addrs L) :=
    frame_trans hf1 hf2 (fun _ h => h) (by rw [addrs_reverse]; intro a ha; simpa using ha)
  have hheap : st2.heap = st.heap := by
    apply heap_ext hfr.1
    intro a
    by_cases ha : a ∈ addrs L
    · exact chain_deref_eq hw.2 hw2.2 a ha
    · exact hfr.2 a ha
  cases st2 with
  | mk heap2 q2 =>
    cases st with
    | mk heap q =>
      simp only at hheap
      subst hheap
      have := hw.1
      have := hw2.1
      simp_all

/-! ## Insertion and removal -/

theorem chain_append_heap {h : Heap} {p : Option Nat} {l : List (Nat × List Nat)}
    (hc : Chain h p l) (c : Heap) : Chain (h ++ c) p l :=
  chain_frame hc (fun a ha => deref_append_left h c a (chain_lt hc a ha))

theorem lastAddr_cons_cons (x y : Nat × List Nat) (l : List (Nat × List Nat)) :
    lastAddr (x :: y :: l) = lastAddr (y :: l) := by
  simp [lastAddr, List.getLast?_cons_cons]

theorem lastAddr_append_singleton (l : List (Nat × List Nat)) (x : Nat × List Nat) :
    lastAddr (l ++ [x]) = some x.1 := by
  simp [lastAddr]

theorem firstAddr_append_singleton (l : List (Nat × List Nat)) (x : Nat × List Nat) :
    firstAddr (l ++ [x]) = if l = [] then some x.1 else firstAddr l := by
  cases l <;> simp [firstAddr]

theorem q_insert_head_headChain {st : State} {L : List (Nat × List Nat)}
    (hc : HeadChain st L) (v : List Nat) :
    ∃ st', q_insert_head st v true true = (true, st') ∧
      HeadChain st' ((st.heap.length, v) :: L) := by
  obtain ⟨t, hq, hch⟩ := hc
  refine ⟨_, by simp only [q_insert_head, hq]; rfl,
    ⟨if t = none then some st.heap.length else t, ?_, ?_⟩⟩
  · simp [firstAddr]
  · refine chain_cons.2 ⟨rfl, firstAddr L, ?_, chain_append_heap hch _⟩
    exact deref_append_new _ _

theorem q_insert_head_wf {st : State} {L : List (Nat × List Nat)}
    (hw : WF st L) (v : List Nat) :
    ∃ st', q_insert_head st v true true = (true, st') ∧ WF st' ((st.heap.length, v) :: L) := by
  obtain ⟨hq, hch⟩ := hw
  refine ⟨_, by simp only [q_insert_head, hq]; rfl, ?_, ?_⟩
  · cases L with
    | nil => simp [firstAddr, lastAddr]
    | cons y L => simp [firstAddr, lastAddr, List.getLast?_cons_cons]
  · refine chain_cons.2 ⟨rfl, firstAddr L, ?_, chain_append_heap hch _⟩
    exact deref_append_new _ _

theorem q_insert_tail_wf {st : State} {L : List (Nat × List Nat)}
    (hw : WF st L) (v : List Nat) :
    ∃ st', q_insert_tail st v true true = some (true, st') ∧
      WF st' (L ++ [(st.heap.length, v)]) := by
  obtain ⟨hq, hch⟩ := hw
  rcases List.eq_nil_or_concat L with hL | ⟨l1, x, hL⟩
  · subst hL
    refine ⟨_, by simp only [q_insert_tail, hq]; rfl, ?_, ?_⟩
    · simp [firstAddr, lastAddr]
    · refine chain_cons.2 ⟨rfl, none, ?_, chain_nil.2 rfl⟩
      exact deref_append_new _ _
  · rw [List.concat_eq_append] at hL
    subst hL
    have hnd := chain_nodup hch
    obtain ⟨n, hdx⟩ := chain_deref hch x (by simp)
    have hxlt := deref_lt hdx
    have hdx1 : deref (st.heap ++ [some { value := v, next := none }]) (some x.1) =
        some { value := x.2, next := n } := by
      rw [deref_append_left _ _ _ hxlt, hdx]
    obtain ⟨h2, hs2, hd2, hf2⟩ := setNext_spec (some st.heap.length) hdx1
    have hfirst : firstAddr (l1 ++ [x] ++ [(st.heap.length, v)]) = firstAddr (l1 ++ [x]) := by
      rw [firstAddr_append_singleton]; simp
    refine ⟨{ heap := h2, q := some { head := firstAddr (l1 ++ [x]), tail := some st.heap.length,
                                      size := ((l1 ++ [x]).length : Nat) + 1 } }, ?_, ?_, ?_⟩
    · simp only [q_insert_tail, hq, lastAddr_append_singleton, hs2]
      simp
    · simp only
      rw [hfirst, lastAddr_append_singleton]
      simp
      omega
    · rw [hfirst]
      have hc' : Chain st.heap (firstAddr (l1 ++ [x])) (l1 ++ x :: []) := by simpa using hch
      have hfr : ∀ a ∈ addrs l1, deref h2 (some a) = deref st.heap (some a) := by
        intro a ha
        have hax : a ≠ x.1 := by
          rintro rfl
          simp only [addrs, List.map_append, List.map_cons, List.map_nil] at hnd ha
          have := List.nodup_append.1 hnd
          exact this.2.2 ha (by simp)
        rw [hf2.2 a (by simpa using hax)]
        exact deref_append_left _ _ _ (chain_lt hch a (by simp [addrs] at ha ⊢; exact Or.inl ha))
      have hR : Chain h2 (some st.heap.length) [(st.heap.length, v)] := by
        refine chain_cons.2 ⟨rfl, none, ?_, chain_nil.2 rfl⟩
        rw [hf2.2 _ (by simp; omega)]
        exact deref_append_new _ _
      have := chain_splice l1 hc' hd2 hfr hR
      simpa using this

theorem copy_out_fits {buf v : List Nat} {bufsize : Nat} (h1 : v.length < bufsize)
    (h2 : bufsize ≤ buf.length) (h3 : bufsize < SIZE_MOD) :
    copy_out buf v bufsize = some (v ++ 0 :: buf.drop (v.length + 1)) := by
  have hmod : (v.length + 1) % SIZE_MOD = v.length + 1 := Nat.mod_eq_of_lt (by omega)
  simp only [copy_out, strlen, gt_iff_lt, h1, if_true, hmod, memset]
  rw [if_pos (by omega)]
  simp only [strncpy, strlen]
  rw [if_pos (by simp; omega)]
  simp [List.drop_append_eq_append_drop, List.replicate_succ']

theorem q_remove_head_headChain {st : State} {x : Nat × List Nat} {L : List (Nat × List Nat)}
    (hc : HeadChain st (x :: L)) (sp : Option (List Nat)) (bufsize : Nat)
    (out : Option (List Nat))
    (hout : (match sp with
      | none => some none
      | some buf => (copy_out buf x.2 bufsize).map some) = some out) :
    ∃ st', q_remove_head st sp bufsize = some (true, st', out) ∧ HeadChain st' L := by
  obtain ⟨t, hq, hch⟩ := hc
  obtain ⟨_, n, hd, hr⟩ := chain_cons.1 hch
  have hn := chain_head hr
  subst hn
  have hnd := chain_nodup hch
  simp only [addrs, List.map_cons, List.nodup_cons] at hnd
  refine ⟨{ heap := st.heap.set x.1 none,
            q := some { head := firstAddr L, tail := t, size := (L.length : Nat) } }, ?_, t, rfl, ?_⟩
  · simp only [q_remove_head, hq, firstAddr_cons, hd, free]
    simp only [hout]
    simp
  · refine chain_of_frame hr (frame_set none (deref_lt hd)) ?_
    intro a ha
    simp only [List.mem_singleton]
    rintro rfl
    exact hnd.1 ha

theorem wf_headChain {st : State} {L : List (Nat × List Nat)} (hw : WF st L) :
    HeadChain st L := ⟨_, hw.1, hw.2⟩

/-! ## The loop of `merge` -/

theorem mergeL_nil_left (bs : List (Nat × List Nat)) : mergeL [] bs = bs := by
  rw [mergeL]

theorem mergeL_nil_right (as : List (Nat × List Nat)) : mergeL as [] = as := by
  cases as <;> rw [mergeL]

theorem mergeL_cons_cons (a b : Nat × List Nat) (as bs : List (Nat × List Nat)) :
    mergeL (a :: as) (b :: bs) =
      if ¬ (strcmp a.2 b.2 ≥ 0) then a :: mergeL as (b :: bs) else b :: mergeL (a :: as) bs := by
  rw [mergeL]

theorem mergeL_perm (as bs : List (Nat × List Nat)) : (mergeL as bs).Perm (as ++ bs) := by
  induction as generalizing bs with
  | nil => simp [mergeL_nil_left]
  | cons a as iha =>
    induction bs with
    | nil => simp [mergeL_nil_right]
    | cons b bs ihb =>
      rw [mergeL_cons_cons]
      by_cases hc : ¬ (strcmp a.2 b.2 ≥ 0)
      · rw [if_pos hc]
        exact (iha (b :: bs)).cons a
      · rw [if_neg hc]
        refine (ihb.cons b).trans ?_
        have hm : (a :: as ++ b :: bs).Perm (b :: (a :: as ++ bs)) := List.perm_middle
        exact hm.symm

theorem link_spec {h : Heap} {t : Nat} {v : List Nat} {n0 p : Option Nat}
    {C : List (Nat × List Nat)} (hd : deref h (some t) = some { value := v, next := n0 })
    (hc : Chain h p C) (ht : t ∉ addrs C) :
    ∃ h', setNext h (some t) p = some h' ∧ Chain h' (some t) ((t, v) :: C) ∧
      Frame h h' [t] ∧ deref h' (some t) = some { value := v, next := p } := by
  obtain ⟨h', hs, hd', hf⟩ := setNext_spec p hd
  refine ⟨h', hs, chain_cons.2 ⟨rfl, p, hd', chain_of_frame hc hf ?_⟩, hf, hd'⟩
  intro a ha
  simp only [List.mem_singleton]
  rintro rfl
  exact ht ha

theorem merge_rest_spec (fuel : Nat) :
    ∀ (h : Heap) (t : Nat) (v : List Nat) (n0 l1 l2 : Option Nat)
      (A B : List (Nat × List Nat)),
      deref h (some t) = some { value := v, next := n0 } →
      Chain h l1 A → Chain h l2 B → t ∉ addrs A → t ∉ addrs B →
      (∀ a ∈ addrs A, a ∉ addrs B) → A.length + B.length ≤ fuel →
      ∃ h1 tmp l1' l2' h', merge_loop fuel h (some t) l1 l2 = some (h1, tmp, l1', l2') ∧
        merge_finish h1 tmp l1' l2' = some h' ∧
        Chain h' (some t) ((t, v) :: mergeL A B) ∧
        Frame h h' (t :: (addrs A ++ addrs B)) := by
  induction fuel with
  | zero =>
    intro h t v n0 l1 l2 A B hd hA hB htA htB hdis hfuel
    have hA0 : A = [] := List.length_eq_zero.1 (by omega)
    have hB0 : B = [] := List.length_eq_zero.1 (by omega)
    subst hA0 hB0
    have h1 := chain_nil.1 hA
    have h2 := chain_nil.1 hB
    subst h1 h2
    obtain ⟨h', hs, hc, hf, hd'⟩ := link_spec hd hB htB
    obtain ⟨h'', hs', hc', hf', _⟩ := link_spec (p := none) (C := []) hd' (chain_nil.2 rfl) (by simp [addrs])
    refine ⟨h, some t, none, none, h'', ?_, ?_, ?_, ?_⟩
    · rw [merge_loop.eq_def]; simp
    · simp [merge_finish, hs, hs']
    · simpa [mergeL_nil_left] using hc'
    · exact frame_trans hf hf' (by simp) (by simp)
  | succ fuel ih =>
    intro h t v n0 l1 l2 A B hd hA hB htA htB hdis hfuel
    cases A with
    | nil =>
      have h1 := chain_nil.1 hA
      subst h1
      obtain ⟨h', hs, hc, hf, hd'⟩ := link_spec hd hB htB
      rw [mergeL_nil_left]
      cases B with
      | nil =>
        have h2 := chain_nil.1 hB
        subst h2
        obtain ⟨h'', hs', hc', hf', _⟩ := link_spec (p := none) (C := []) hd' (chain_nil.2 rfl) (by simp [addrs])
        refine ⟨h, some t, none, none, h'', ?_, ?_, hc', ?_⟩
        · rw [merge_loop.eq_def]; simp
        · simp [merge_finish, hs, hs']
        · exact frame_trans hf hf' (by simp) (by simp)
      | cons b B =>
        have h2 := (chain_cons.1 hB).1
        subst h2
        refine ⟨h, some t, none, some b.1, h', ?_, ?_, hc, frame_mono hf (by simp)⟩
        · rw [merge_loop.eq_def]; simp
        · simp [merge_finish, hs]
    | cons a A =>
      obtain ⟨hl1, na, hda, hrA⟩ := chain_cons.1 hA
      subst hl1
      cases B with
      | nil =>
        have h2 := chain_nil.1 hB
        subst h2
        obtain ⟨h', hs, hc, hf, hd'⟩ := link_spec hd hA htA
        rw [mergeL_nil_right]
        refine ⟨h, some t, some a.1, none, h', ?_, ?_, hc, frame_mono hf (by simp)⟩
        · rw [merge_loop.eq_def]; simp
        · simp [merge_finish, hs]
      | cons b B =>
        obtain ⟨hl2, nb, hdb, hrB⟩ := chain_cons.1 hB
        subst hl2
        have hndA := chain_nodup hA
        have hndB := chain_nodup hB
        simp only [addrs, List.map_cons, List.nodup_cons, List.mem_cons, not_or] at hndA hndB htA htB
        have hab : a.1 ∉ addrs (b :: B) := hdis a.1 (by simp [addrs])
        rw [mergeL_cons_cons]
        by_cases hcmp : ¬ (strcmp a.2 b.2 ≥ 0)
        · -- the element of l1 is linked next
          obtain ⟨h1, hs, hc, hf, hd'⟩ := link_spec hd hA (by
            simp only [addrs, List.map_cons, List.mem_cons, not_or]; exact htA)
          have hda1 : deref h1 (some a.1) = some { value := a.2, next := na } := by
            rw [hf.2 a.1 (by simp; exact fun e => htA.1 e.symm), hda]
          have hrA1 : Chain h1 na A := chain_of_frame hrA hf (by
            intro x hx; simp only [List.mem_singleton]; rintro rfl; exact htA.2 hx)
          have hB1 : Chain h1 (some b.1) (b :: B) := chain_of_frame hB hf (by
            intro x hx; simp only [List.mem_singleton]; rintro rfl
            simp only [addrs, List.map_cons, List.mem_cons] at hx
            rcases hx with hx | hx
            · exact htB.1 hx
            · exact htB.2 hx)
          obtain ⟨h2, tmp, l1', l2', h', hrun, hfin, hch, hfr⟩ :=
            ih h1 a.1 a.2 na na (some b.1) A (b :: B) hda1 hrA1 hB1 hndA.1 hab
              (fun x hx => hdis x (by simp only [addrs, List.map_cons, List.mem_cons]; exact Or.inr hx))
              (by simp at hfuel ⊢; omega)
          refine ⟨h2, tmp, l1', l2', h', ?_, hfin, ?_, ?_⟩
          · rw [merge_loop.eq_def]
            simp only [hda, hdb, hcmp, hs, hda1, hd']
            simpa using hrun
          · rw [if_pos hcmp]
            refine chain_cons.2 ⟨rfl, some a.1, ?_, hch⟩
            rw [hfr.2 t ?_, hd']
            simp only [List.mem_cons, List.mem_append, not_or, addrs, List.map_cons]
            exact ⟨fun e => htA.1 e, htA.2, fun e => htB.1 e, htB.2⟩
          · refine frame_trans hf hfr (by simp) ?_
            intro x hx
            simp only [addrs, List.map_cons, List.mem_cons, List.mem_append] at hx ⊢
            tauto
        · -- the element of l2 is linked next
          obtain ⟨h1, hs, hc, hf, hd'⟩ := link_spec hd hB (by
            simp only [addrs, List.map_cons, List.mem_cons, not_or]; exact htB)
          have hdb1 : deref h1 (some b.1) = some { value := b.2, next := nb } := by
            rw [hf.2 b.1 (by simp; exact fun e => htB.1 e.symm), hdb]
          have hrB1 : Chain h1 nb B := chain_of_frame hrB hf (by
            intro x hx; simp only [List.mem_singleton]; rintro rfl; exact htB.2 hx)
          have hA1 : Chain h1 (some a.1) (a :: A) := chain_of_frame hA hf (by
            intro x hx; simp only [List.mem_singleton]; rintro rfl
            simp only [addrs, List.map_cons, List.mem_cons] at hx
            rcases hx with hx | hx
            · exact htA.1 hx
            · exact htA.2 hx)
          have hbA : b.1 ∉ addrs (a :: A) := fun hm => hdis b.1 hm (by simp [addrs])
          obtain ⟨h2, tmp, l1', l2', h', hrun, hfin, hch, hfr⟩ :=
            ih h1 b.1 b.2 nb (some a.1) nb (a :: A) B hdb1 hA1 hrB1 hbA hndB.1
              (fun x hx hxB => hdis x hx (by
                simp only [addrs, List.map_cons, List.mem_cons]; exact Or.inr hxB))
              (by simp at hfuel ⊢; omega)
          refine ⟨h2, tmp, l1', l2', h', ?_, hfin, ?_, ?_⟩
          · rw [merge_loop.eq_def]
            simp only [hda, hdb, hcmp, hs, hdb1, hd']
            simpa using hrun
          · rw [if_neg hcmp]
            refine chain_cons.2 ⟨rfl, some b.1, ?_, hch⟩
            rw [hfr.2 t ?_, hd']
            simp only [List.mem_cons, List.mem_append, not_or, addrs, List.map_cons]
            exact ⟨fun e => htB.1 e, ⟨fun e => htA.1 e, htA.2⟩, htB.2⟩
          · refine frame_trans hf hfr (by simp) ?_
            intro x hx
            simp only [addrs, List.map_cons, List.mem_cons, List.mem_append] at hx ⊢
            tauto

/-! ## `merge` and the split of `merge_sort` -/

theorem strle_of_not_ge {a b : List Nat} (h : ¬ (strcmp a b ≥ 0)) : le a b := by
  simp only [le]; omega

theorem strle_of_ge {a b : List Nat} (h : strcmp a b ≥ 0) : le b a := by
  simp only [le]; rw [strcmp_swap]; omega

theorem strle_trans {a b c : List Nat} (h1 : le a b) (h2 : le b c) : le a c :=
  strcmp_le_trans h1 h2

theorem mergeL_mem {as bs : List (Nat × List Nat)} {x : Nat × List Nat} :
    x ∈ mergeL as bs ↔ x ∈ as ∨ x ∈ bs := by
  rw [(mergeL_perm as bs).mem_iff, List.mem_append]

theorem mergeL_sorted (as bs : List (Nat × List Nat))
    (ha : as.Pairwise (fun x y => le x.2 y.2)) (hb : bs.Pairwise (fun x y => le x.2 y.2)) :
    (mergeL as bs).Pairwise (fun x y => le x.2 y.2) := by
  induction as generalizing bs with
  | nil => rwa [mergeL_nil_left]
  | cons a as iha =>
    induction bs with
    | nil => rwa [mergeL_nil_right]
    | cons b bs ihb =>
      rw [mergeL_cons_cons]
      have ha' := List.pairwise_cons.1 ha
      have hb' := List.pairwise_cons.1 hb
      by_cases hc : ¬ (strcmp a.2 b.2 ≥ 0)
      · rw [if_pos hc]
        refine List.pairwise_cons.2 ⟨?_, iha (b :: bs) ha'.2 hb⟩
        intro y hy
        rcases mergeL_mem.1 hy with hy | hy
        · exact ha'.1 y hy
        · rcases List.mem_cons.1 hy with hy | hy
          · subst hy; exact strle_of_not_ge hc
          · exact strle_trans (strle_of_not_ge hc) (hb'.1 y hy)
      · rw [if_neg hc]
        have hba : le b.2 a.2 := strle_of_ge (not_not.1 hc)
        refine List.pairwise_cons.2 ⟨?_, ihb hb'.2⟩
        intro y hy
        rcases mergeL_mem.1 hy with hy | hy
        · rcases List.mem_cons.1 hy with hy | hy
          · subst hy; exact hba
          · exact strle_trans hba (ha'.1 y hy)
        · exact hb'.1 y hy

theorem merge_spec {h : Heap} {l1 l2 : Option Nat} {A B : List (Nat × List Nat)} {fuel : Nat}
    (hA : Chain h l1 A) (hB : Chain h l2 B) (hdis : ∀ a ∈ addrs A, a ∉ addrs B)
    (hfuel : A.length + B.length ≤ fuel) :
    ∃ h', merge fuel h l1 l2 = some (h', firstAddr (mergeL A B)) ∧
      Chain h' (firstAddr (mergeL A B)) (mergeL A B) ∧ Frame h h' (addrs A ++ addrs B) := by
  cases B with
  | nil =>
    have h2 := chain_nil.1 hB
    subst h2
    rw [mergeL_nil_right, ← chain_head hA]
    exact ⟨h, by simp [merge], hA, frame_refl _ _⟩
  | cons b B =>
    obtain ⟨hl2, nb, hdb, hrB⟩ := chain_cons.1 hB
    subst hl2
    cases A with
    | nil =>
      have h1 := chain_nil.1 hA
      subst h1
      rw [mergeL_nil_left]
      exact ⟨h, by simp [merge, firstAddr], hB, frame_refl _ _⟩
    | cons a A =>
      obtain ⟨hl1, na, hda, hrA⟩ := chain_cons.1 hA
      subst hl1
      have hndA := chain_nodup hA
      have hndB := chain_nodup hB
      simp only [addrs, List.map_cons, List.nodup_cons] at hndA hndB
      rw [mergeL_cons_cons]
      by_cases hcmp : ¬ (strcmp a.2 b.2 ≥ 0)
      · obtain ⟨h2, tmp, l1', l2', h', hrun, hfin, hch, hfr⟩ :=
          merge_rest_spec fuel h a.1 a.2 na na (some b.1) A (b :: B) hda hrA hB hndA.1
            (hdis a.1 (by simp [addrs]))
            (fun x hx => hdis x (by simp only [addrs, List.map_cons, List.mem_cons]; exact Or.inr hx))
            (by simp at hfuel ⊢; omega)
        rw [if_pos hcmp]
        refine ⟨h', ?_, hch, ?_⟩
        · simp only [merge, hda, hdb, hcmp, hrun, hfin]
          simp [firstAddr, hrun, hfin]
        · refine frame_mono hfr ?_
          intro x hx
          simp only [addrs, List.map_cons, List.mem_cons, List.mem_append] at hx ⊢
          tauto
      · obtain ⟨h2, tmp, l1', l2', h', hrun, hfin, hch, hfr⟩ :=
          merge_rest_spec fuel h b.1 b.2 nb (some a.1) nb (a :: A) B hdb hA hrB
            (fun hm => hdis b.1 hm (by simp [addrs])) hndB.1
            (fun x hx hxB => hdis x hx (by
              simp only [addrs, List.map_cons, List.mem_cons]; exact Or.inr hxB))
            (by simp at hfuel ⊢; omega)
        rw [if_neg hcmp]
        refine ⟨h', ?_, hch, ?_⟩
        · simp only [merge, hda, hdb, hcmp, hrun, hfin]
          simp [firstAddr, hrun, hfin]
        · refine frame_mono hfr ?_
          intro x hx
          simp only [addrs, List.map_cons, List.mem_cons, List.mem_append] at hx ⊢
          tauto

theorem chain_drop {h : Heap} {p : Option Nat} {L : List (Nat × List Nat)} (hc : Chain h p L)
    (i : Nat) : Chain h (firstAddr (L.drop i)) (L.drop i) := by
  have hL : L = L.take i ++ L.drop i := (List.take_append_drop i L).symm
  rw [hL] at hc
  obtain ⟨q, hq⟩ := chain_suffix hc
  rwa [← chain_head hq]

theorem chain_drop_step {h : Heap} {p : Option Nat} {L : List (Nat × List Nat)}
    (hc : Chain h p L) (i : Nat) (hi : i < L.length) :
    firstAddr (L.drop i) = some (L[i]).1 ∧
      deref h (some (L[i]).1) = some { value := (L[i]).2, next := firstAddr (L.drop (i + 1)) } := by
  have hd := chain_drop hc i
  rw [List.drop_eq_getElem_cons hi] at hd
  obtain ⟨hp, n, hdn, hr⟩ := chain_cons.1 hd
  rw [chain_head hr] at hdn
  refine ⟨?_, hdn⟩
  rw [List.drop_eq_getElem_cons hi]
  rfl

theorem split_loop_spec {h : Heap} {p : Option Nat} {L : List (Nat × List Nat)}
    (hc : Chain h p L) (fuel : Nat) :
    ∀ i, 2 * i + 1 ≤ L.length → L.length ≤ 2 * i + 2 + 2 * fuel →
      split_loop fuel h (firstAddr (L.drop i)) (firstAddr (L.drop (2 * i + 1))) =
        some (firstAddr (L.drop ((L.length - 1) / 2))) := by
  induction fuel with
  | zero =>
    intro i h1 h2
    rw [split_loop.eq_def]
    by_cases hn : 2 * i + 1 = L.length
    · have : L.drop (2 * i + 1) = [] := List.drop_eq_nil_of_le (by omega)
      have hk : (L.length - 1) / 2 = i := by omega
      simp [this, firstAddr, hk]
    · have hlt : 2 * i + 1 < L.length := by omega
      obtain ⟨hf, hd⟩ := chain_drop_step hc (2 * i + 1) hlt
      have : L.drop (2 * i + 1 + 1) = [] := List.drop_eq_nil_of_le (by omega)
      have hk : (L.length - 1) / 2 = i := by omega
      rw [this] at hd
      simp only [hf, hd, hk]
      simp [firstAddr]
  | succ fuel ih =>
    intro i h1 h2
    rw [split_loop.eq_def]
    by_cases hn : 2 * i + 1 = L.length
    · have : L.drop (2 * i + 1) = [] := List.drop_eq_nil_of_le (by omega)
      have hk : (L.length - 1) / 2 = i := by omega
      simp [this, firstAddr, hk]
    · have hlt : 2 * i + 1 < L.length := by omega
      obtain ⟨hf, hd⟩ := chain_drop_step hc (2 * i + 1) hlt
      by_cases hn2 : 2 * i + 2 = L.length
      · have : L.drop (2 * i + 1 + 1) = [] := List.drop_eq_nil_of_le (by omega)
        have hk : (L.length - 1) / 2 = i := by omega
        rw [this] at hd
        simp only [hf, hd, hk]
        simp [firstAddr]
      · have hlt2 : 2 * i + 1 + 1 < L.length := by omega
        obtain ⟨hf2, hd2⟩ := chain_drop_step hc (2 * i + 1 + 1) hlt2
        obtain ⟨hs, hds⟩ := chain_drop_step hc i (by omega)
        have hrec := ih (i + 1) (by omega) (by omega)
        have e1 : 2 * (i + 1) + 1 = 2 * i + 1 + 1 + 1 := by ring
        rw [e1] at hrec
        simp only [hf, hd, hf2, hd2, hs, hds]
        simpa using hrec

/-! ## `merge_sort` -/

theorem addrs_perm {l1 l2 : List (Nat × List Nat)} (hp : l1.Perm l2) :
    (addrs l1).Perm (addrs l2) := hp.map _

theorem addrs_append (l1 l2 : List (Nat × List Nat)) : addrs (l1 ++ l2) = addrs l1 ++ addrs l2 := by
  simp [addrs]

theorem merge_sort_spec (fuel : Nat) :
    ∀ (h : Heap) (head : Option Nat) (L : List (Nat × List Nat)),
      Chain h head L → L.length ≤ fuel + 1 →
      ∃ h' L', merge_sort fuel h head = some (h', firstAddr L') ∧
        Chain h' (firstAddr L') L' ∧ L'.Perm L ∧ L'.Pairwise (fun x y => le x.2 y.2) ∧
        Frame h h' (addrs L) := by
  induction fuel with
  | zero =>
    intro h head L hc hlen
    cases L with
    | nil =>
      have := chain_nil.1 hc
      subst this
      exact ⟨h, [], by rw [merge_sort.eq_def]; simp [firstAddr], hc, List.Perm.refl _,
        List.Pairwise.nil, frame_refl _ _⟩
    | cons x L =>
      have hL : L = [] := List.length_eq_zero.1 (by
        simp only [List.length_cons] at hlen; omega)
      subst hL
      obtain ⟨hp, n, hd, hr⟩ := chain_cons.1 hc
      have := chain_nil.1 hr
      subst this hp
      refine ⟨h, [x], ?_, hc, List.Perm.refl _, List.pairwise_singleton _ _, frame_refl _ _⟩
      rw [merge_sort.eq_def]; simp [firstAddr, hd]
  | succ fuel ih =>
    intro h head L hc hlen
    cases L with
    | nil =>
      have := chain_nil.1 hc
      subst this
      exact ⟨h, [], by rw [merge_sort.eq_def]; simp [firstAddr], hc, List.Perm.refl _,
        List.Pairwise.nil, frame_refl _ _⟩
    | cons x L =>
      obtain ⟨hp, n, hd, hr⟩ := chain_cons.1 hc
      subst hp
      cases L with
      | nil =>
        have := chain_nil.1 hr
        subst this
        refine ⟨h, [x], ?_, hc, List.Perm.refl _, List.pairwise_singleton _ _, frame_refl _ _⟩
        rw [merge_sort.eq_def]; simp [firstAddr, hd]
      | cons y L =>
        have hn := (chain_cons.1 hr).1
        subst hn
        -- the split
        generalize hLL : x :: y :: L = LL at hc hlen
        have hlen2 : 2 ≤ LL.length := by rw [← hLL]; simp
        have hhl := chain_length_le hc
        have hsplit := split_loop_spec hc h.length 0 (by omega) (by omega)
        have hfa0 : firstAddr (LL.drop 0) = some x.1 := by rw [← hLL]; rfl
        have hfa1 : firstAddr (LL.drop (2 * 0 + 1)) = some y.1 := by rw [← hLL]; rfl
        rw [hfa0, hfa1] at hsplit
        set k := (LL.length - 1) / 2 with hk
        have hklt : k < LL.length := by omega
        obtain ⟨hsl, hdsl⟩ := chain_drop_step hc k hklt
        rw [hsl] at hsplit
        obtain ⟨h1, hs1, hd1, hf1⟩ := setNext_spec none hdsl
        have hdecomp : LL = LL.take k ++ LL[k] :: LL.drop (k + 1) := by
          rw [← List.drop_eq_getElem_cons hklt, List.take_append_drop]
        have hnd := chain_nodup hc
        have hnd' : (addrs (LL.take k) ++ (LL[k]).1 :: addrs (LL.drop (k + 1))).Nodup := by
          have : addrs LL = addrs (LL.take k) ++ (LL[k]).1 :: addrs (LL.drop (k + 1)) := by
            have e := congrArg addrs hdecomp
            rw [addrs_append] at e
            exact e
          rw [← this]; exact hnd
        obtain ⟨hndA, hndB, hdisAB⟩ := List.nodup_append.1 hnd'
        have hcA : Chain h1 (some x.1) (LL.take k ++ LL[k] :: []) := by
          have hc' : Chain h (some x.1) (LL.take k ++ LL[k] :: LL.drop (k + 1)) := by
            rw [← hdecomp]; exact hc
          refine chain_splice (LL.take k) hc' hd1 ?_ (chain_nil.2 rfl)
          intro a ha
          refine hf1.2 a ?_
          simp only [List.mem_singleton]
          rintro rfl
          exact hdisAB ha (by simp)
        have hcB : Chain h1 (firstAddr (LL.drop (k + 1))) (LL.drop (k + 1)) := by
          refine chain_of_frame (chain_drop hc (k + 1)) hf1 ?_
          intro a ha
          simp only [List.mem_singleton]
          rintro rfl
          exact (List.nodup_cons.1 hndB).1 ha
        have hlenA : (LL.take k ++ LL[k] :: []).length = k + 1 := by
          rw [List.length_append, List.length_take, List.length_singleton,
            Nat.min_eq_left (by omega)]
        have hlenB : (LL.drop (k + 1)).length = LL.length - (k + 1) := by simp
        obtain ⟨h2, A', hrunA, hcA', hpA, hsA, hfA⟩ := ih h1 (some x.1) _ hcA (by omega)
        have haddrA : ∀ a, a ∈ addrs A' ↔ a ∈ addrs (LL.take k) ∨ a = (LL[k]).1 := by
          intro a
          rw [(addrs_perm hpA).mem_iff]
          simp only [addrs, List.map_append, List.map_cons, List.map_nil, List.mem_append,
            List.mem_singleton]
        have hdisj : ∀ a ∈ addrs A', a ∉ addrs (LL.drop (k + 1)) := by
          intro a ha hb
          rcases (haddrA a).1 ha with ha | ha
          · exact hdisAB ha (List.mem_cons_of_mem _ hb)
          · subst ha; exact (List.nodup_cons.1 hndB).1 hb
        have hcB2 : Chain h2 (firstAddr (LL.drop (k + 1))) (LL.drop (k + 1)) := by
          refine chain_of_frame hcB hfA ?_
          intro a ha hm
          exact hdisj a ((addrs_perm hpA).mem_iff.2 hm) ha
        obtain ⟨h3, B', hrunB, hcB', hpB, hsB, hfB⟩ :=
          ih h2 (firstAddr (LL.drop (k + 1))) _ hcB2 (by omega)
        have hcA3 : Chain h3 (firstAddr A') A' := by
          refine chain_of_frame hcA' hfB ?_
          intro a ha
          exact hdisj a ha
        have hdisj' : ∀ a ∈ addrs A', a ∉ addrs B' := by
          intro a ha hb
          exact hdisj a ha ((addrs_perm hpB).mem_iff.1 hb)
        have hl3 : h3.length = h.length := by rw [hfB.1, hfA.1, hf1.1]
        have hfuelM : A'.length + B'.length ≤ h3.length := by
          rw [hl3, hpA.length_eq, hpB.length_eq, hlenA, hlenB]; omega
        obtain ⟨h', hrunM, hcM, hfM⟩ := merge_spec hcA3 hcB' hdisj' hfuelM
        have hpermL : (A' ++ B').Perm LL := by
          have := hpA.append hpB
          have e : (LL.take k ++ LL[k] :: []) ++ LL.drop (k + 1) = LL := by
            rw [List.append_assoc]; exact hdecomp.symm
          rwa [e] at this
        have hsubA : addrs (LL.take k ++ LL[k] :: []) ⊆ addrs LL := by
          intro a ha
          rw [hdecomp, addrs_append]
          simp only [addrs, List.map_append, List.map_cons, List.map_nil, List.mem_append,
            List.mem_cons, List.mem_singleton, List.not_mem_nil, or_false] at ha ⊢
          tauto
        have hsubB : addrs (LL.drop (k + 1)) ⊆ addrs LL := by
          intro a ha
          rw [hdecomp, addrs_append]
          simp only [addrs, List.map_append, List.map_cons, List.mem_append, List.mem_cons] at ha ⊢
          tauto
        refine ⟨h', mergeL A' B', ?_, hcM, (mergeL_perm A' B').trans hpermL,
          mergeL_sorted A' B' hsA hsB, ?_⟩
        · rw [merge_sort.eq_def]
          have hyn : (x :: y :: L).length = LL.length := by rw [hLL]
          simp only [hd, hsplit, hdsl, hs1, hrunA, hrunB, hrunM]
          simp
        · have f12 : Frame h h2 (addrs LL) :=
            frame_trans hf1 hfA (by
              intro a ha
              simp only [List.mem_singleton] at ha
              subst ha
              exact List.mem_map.2 ⟨LL[k], List.getElem_mem hklt, rfl⟩) hsubA
          have f13 : Frame h h3 (addrs LL) := frame_trans f12 hfB (fun _ hx => hx) hsubB
          refine frame_trans f13 hfM (fun _ hx => hx) ?_
          intro a ha
          rcases List.mem_append.1 ha with ha | ha
          · exact hsubA ((addrs_perm hpA).mem_iff.1 ha)
          · exact hsubB ((addrs_perm hpB).mem_iff.1 ha)

/-! ## `q_sort` on a well-formed queue -/

theorem last_loop_spec (L : List (Nat × List Nat)) :
    ∀ (h : Heap) (x : Nat × List Nat) (p : Option Nat) (fuel : Nat),
      Chain h p (x :: L) → L.length ≤ fuel →
      last_loop fuel h p = some (lastAddr (x :: L)) := by
  induction L with
  | nil =>
    intro h x p fuel hc _
    obtain ⟨hp, n, hd, hr⟩ := chain_cons.1 hc
    have := chain_nil.1 hr
    subst this hp
    rw [last_loop.eq_def]
    simp [hd, lastAddr]
  | cons y L ih =>
    intro h x p fuel hc hfuel
    obtain ⟨hp, n, hd, hr⟩ := chain_cons.1 hc
    have hn := (chain_cons.1 hr).1
    subst hn hp
    cases fuel with
    | zero => simp at hfuel
    | succ fuel =>
      rw [last_loop.eq_def]
      simp only [hd, lastAddr_cons_cons]
      simpa using ih h y (some y.1) fuel hr (by simpa using hfuel)

theorem q_sort_spec {st : State} {L : List (Nat × List Nat)} (hw : WF st L) :
    ∃ st' L', q_sort st = some st' ∧ WF st' L' ∧ L'.Perm L ∧
      L'.Pairwise (fun x y => le x.2 y.2) ∧ Frame st.heap st'.heap (addrs L) ∧
      (L.length ≤ 1 → st' = st) := by
  obtain ⟨hq, hc⟩ := hw
  cases L with
  | nil =>
    refine ⟨st, [], ?_, ⟨hq, hc⟩, List.Perm.refl _, List.Pairwise.nil, frame_refl _ _, fun _ => rfl⟩
    simp [q_sort, hq, firstAddr]
  | cons x L =>
    obtain ⟨_, n, hd, hr⟩ := chain_cons.1 hc
    cases L with
    | nil =>
      have := chain_nil.1 hr
      subst this
      refine ⟨st, [x], ?_, ⟨hq, hc⟩, List.Perm.refl _, List.pairwise_singleton _ _,
        frame_refl _ _, fun _ => rfl⟩
      simp [q_sort, hq, firstAddr, hd]
    | cons y L =>
      have hn := (chain_cons.1 hr).1
      subst hn
      have hlen := chain_length_le hc
      obtain ⟨h', L', hrun, hch, hperm, hsorted, hfr⟩ :=
        merge_sort_spec st.heap.length st.heap _ _ hc (by omega)
      have hlen' : L'.length = (x :: y :: L).length := hperm.length_eq
      cases L' with
      | nil => simp at hlen'
      | cons z L' =>
        have hlast := last_loop_spec L' h' z _ h'.length hch (by
          have := chain_length_le hch
          simp only [List.length_cons] at this
          omega)
        refine ⟨{ heap := h', q := some { head := firstAddr (z :: L'), tail := lastAddr (z :: L'),
                                          size := ((x :: y :: L).length : Nat) } }, z :: L',
          ?_, ⟨?_, hch⟩, hperm, hsorted, hfr, ?_⟩
        · simp only [q_sort, hq, firstAddr_cons, hd]
          rw [firstAddr_cons] at hrun
          simp only [hrun, hlast]
          simp [firstAddr]
        · simp only [hlen']
        · intro h1; simp at h1

/-! ## Sequences of operations -/

theorem run_cons_some {st st1 st2 : State} {op : Op} {ops : List Op}
    {r : Option Bool × Option (List Nat)} {rs : List (Option Bool × Option (List Nat))}
    (h1 : step st op = some (st1, r)) (h2 : run st1 ops = some (st2, rs)) :
    run st (op :: ops) = some (st2, r :: rs) := by
  simp [run, h1, h2]

theorem run_append {st st1 st2 : State} {ops1 ops2 : List Op}
    {rs1 rs2 : List (Option Bool × Option (List Nat))}
    (h1 : run st ops1 = some (st1, rs1)) (h2 : run st1 ops2 = some (st2, rs2)) :
    run st (ops1 ++ ops2) = some (st2, rs1 ++ rs2) := by
  induction ops1 generalizing st rs1 with
  | nil =>
    simp only [run, Option.some.injEq, Prod.mk.injEq] at h1
    obtain ⟨rfl, rfl⟩ := h1
    simpa using h2
  | cons op ops ih =>
    simp only [run] at h1
    cases hs : step st op with
    | none => simp [hs] at h1
    | some p =>
      obtain ⟨sta, r⟩ := p
      simp only [hs] at h1
      cases hr : run sta ops with
      | none => simp [hr] at h1
      | some p2 =>
        obtain ⟨stb, rs⟩ := p2
        simp only [hr, Option.some.injEq, Prod.mk.injEq] at h1
        obtain ⟨rfl, rfl⟩ := h1
        exact run_cons_some hs (ih hr)

theorem run_insert_tails (vs : List (List Nat)) :
    ∀ (st : State) (L : List (Nat × List Nat)), WF st L →
      ∃ st' L', run st (vs.map (fun v => Op.insert_tail v true true)) =
          some (st', vs.map (fun _ => (some true, none))) ∧
        WF st' (L ++ L') ∧ values L' = vs := by
  induction vs with
  | nil =>
    intro st L hw
    exact ⟨st, [], rfl, by simpa using hw, rfl⟩
  | cons v vs ih =>
    intro st L hw
    obtain ⟨st1, h1, hw1⟩ := q_insert_tail_wf hw v
    obtain ⟨st2, L2, h2, hw2, hv2⟩ := ih st1 _ hw1
    refine ⟨st2, (st.heap.length, v) :: L2, ?_, by simpa using hw2, by simp [values] at hv2 ⊢; exact hv2⟩
    exact run_cons_some (by simp [step, h1]) h2

theorem run_insert_heads (vs : List (List Nat)) :
    ∀ (st : State) (L : List (Nat × List Nat)), HeadChain st L →
      ∃ st' L', run st (vs.map (fun v => Op.insert_head v true true)) =
          some (st', vs.map (fun _ => (some true, none))) ∧
        HeadChain st' (L' ++ L) ∧ values L' = vs.reverse := by
  induction vs with
  | nil =>
    intro st L hw
    exact ⟨st, [], rfl, by simpa using hw, rfl⟩
  | cons v vs ih =>
    intro st L hw
    obtain ⟨st1, h1, hw1⟩ := q_insert_head_headChain hw v
    obtain ⟨st2, L2, h2, hw2, hv2⟩ := ih st1 _ hw1
    refine ⟨st2, L2 ++ [(st.heap.length, v)], ?_, by simpa using hw2, by simp [values] at hv2 ⊢; exact hv2⟩
    exact run_cons_some (by simp [step, h1]) h2

theorem run_removes (L : List (Nat × List Nat)) :
    ∀ (st : State) (bufs : List (List Nat × Nat)), HeadChain st L →
      List.Forall₂ (fun v b => v.length < b.2 ∧ b.2 ≤ b.1.length ∧ b.2 < SIZE_MOD)
        (values L) bufs →
      ∃ st', run st (bufs.map (fun b => Op.remove_head (some b.1) b.2)) =
          some (st', List.zipWith
            (fun v b => (some true, some (v ++ 0 :: b.1.drop (v.length + 1)))) (values L) bufs) ∧
        HeadChain st' [] := by
  induction L with
  | nil =>
    intro st bufs hc hb
    simp only [values, List.map_nil, List.forall₂_nil_left_iff] at hb
    subst hb
    exact ⟨st, rfl, hc⟩
  | cons x L ih =>
    intro st bufs hc hb
    simp only [values, List.map_cons] at hb
    obtain ⟨b, bufs', hxb, hrest, rfl⟩ := List.forall₂_cons_left_iff.1 hb
    obtain ⟨st1, h1, hc1⟩ := q_remove_head_headChain hc (some b.1) b.2
      (some (x.2 ++ 0 :: b.1.drop (x.2.length + 1)))
      (by simp [copy_out_fits hxb.1 hxb.2.1 hxb.2.2])
    obtain ⟨st2, h2, hc2⟩ := ih st1 bufs' hc1 hrest
    refine ⟨st2, ?_, hc2⟩
    simp only [List.map_cons, values, List.zipWith_cons_cons]
    exact run_cons_some (by simp [step, h1]) h2

theorem wf_q_new : WF (q_new true) [] := by
  simp [WF, q_new, firstAddr, lastAddr, chain_nil]

theorem q_size_headChain {st : State} {L : List (Nat × List Nat)} (hc : HeadChain st L) :
    q_size st = L.length := by
  obtain ⟨t, hq, _⟩ := hc
  simp [q_size, hq]

theorem successes_nil (kind : Op → Bool) : successes kind [] [] = 0 := rfl

theorem successes_cons (kind : Op → Bool) (op : Op) (ops : List Op)
    (r : Option Bool × Option (List Nat)) (rs : List (Option Bool × Option (List Nat))) :
    successes kind (op :: ops) (r :: rs) =
      (if kind op && r.1 == some true then 1 else 0) + successes kind ops rs := by
  simp only [successes, List.zip_cons_cons, List.filter_cons]
  split_ifs with hk
  · simp [hk, Nat.add_comm]
  · simp [hk]

theorem q_reverse_size {st st' : State} (h : q_reverse st = some st') :
    q_size st' = q_size st := by
  simp only [q_reverse] at h
  cases hq : st.q with
  | none => simp [hq] at h; rw [← h]
  | some q =>
    simp only [hq] at h
    split_ifs at h with h1
    · simp at h; rw [← h]
    · cases hr : reverse_loop st.heap.length st.heap q.head none with
      | none => simp [hr] at h
      | some p =>
        simp only [hr, Option.some.injEq] at h
        rw [← h]
        simp [q_size, hq]

theorem q_sort_size {st st' : State} (h : q_sort st = some st') :
    q_size st' = q_size st := by
  simp only [q_sort] at h
  cases hq : st.q with
  | none => simp [hq] at h; rw [← h]
  | some q =>
    simp only [hq] at h
    split_ifs at h with h1
    · simp at h; rw [← h]
    · cases hd : deref st.heap q.head with
      | none => simp [hd] at h
      | some e =>
        simp only [hd] at h
        split_ifs at h with h2
        · simp at h; rw [← h]
        · cases hm : merge_sort st.heap.length st.heap q.head with
          | none => simp [hm] at h
          | some p =>
            obtain ⟨h1', hd'⟩ := p
            simp only [hm] at h
            cases hl : last_loop h1'.length h1' hd' with
            | none => simp [hl] at h
            | some t =>
              simp only [hl, Option.some.injEq] at h
              rw [← h]
              simp [q_size, hq]

theorem step_size {st st' : State} {op : Op} {r : Option Bool × Option (List Nat)}
    (h : step st op = some (st', r)) :
    q_size st' = q_size st + (if op.isInsert && r.1 == some true then 1 else 0)
      - (if op.isRemove && r.1 == some true then 1 else 0) := by
  cases op with
  | insert_head s okEle okVal =>
    simp only [step, Option.some.injEq, Prod.mk.injEq] at h
    obtain ⟨rfl, rfl⟩ := h
    simp only [q_insert_head, Op.isInsert, Op.isRemove, q_size]
    cases hq : st.q with
    | none => simp [hq]
    | some q => cases okEle <;> cases okVal <;> simp [hq]
  | insert_tail s okEle okVal =>
    simp only [step] at h
    cases hi : q_insert_tail st s okEle okVal with
    | none => simp [hi] at h
    | some p =>
      simp only [hi, Option.some.injEq, Prod.mk.injEq] at h
      obtain ⟨rfl, rfl⟩ := h
      simp only [q_insert_tail] at hi
      simp only [Op.isInsert, Op.isRemove, q_size]
      cases hq : st.q with
      | none => simp [hq] at hi; rw [← hi]; simp [hq]
      | some q =>
        simp only [hq] at hi
        cases okEle <;> cases okVal <;> simp at hi
        · rw [← hi]; simp [hq]
        · rw [← hi]; simp [hq]
        · rw [← hi]; simp [hq]
        · split_ifs at hi with ht
          · simp at hi; rw [← hi]; simp
          · cases hs : setNext (st.heap ++ [some { value := s, next := none }]) q.tail
                (some st.heap.length) with
            | none => simp [hs] at hi
            | some h2 => simp [hs] at hi; rw [← hi]; simp
  | remove_head sp bufsize =>
    simp only [step] at h
    cases hi : q_remove_head st sp bufsize with
    | none => simp [hi] at h
    | some p =>
      simp only [hi, Option.some.injEq, Prod.mk.injEq] at h
      obtain ⟨rfl, rfl⟩ := h
      simp only [q_remove_head] at hi
      simp only [Op.isInsert, Op.isRemove, q_size]
      cases hq : st.q with
      | none => simp [hq] at hi; rw [← hi]; simp [hq]
      | some q =>
        simp only [hq] at hi
        split_ifs at hi with hh
        · simp at hi; rw [← hi]; simp [hq]
        · cases hd : deref st.heap q.head with
          | none => simp [hd] at hi
          | some e =>
            simp only [hd] at hi
            split at hi
            · simp at hi; rw [← hi]; simp
            · simp at hi
  | reverse =>
    simp only [step] at h
    cases hi : q_reverse st with
    | none => simp [hi] at h
    | some p =>
      simp only [hi, Option.some.injEq, Prod.mk.injEq] at h
      obtain ⟨rfl, rfl⟩ := h
      simp [Op.isInsert, Op.isRemove, q_reverse_size hi]
  | sort =>
    simp only [step] at h
    cases hi : q_sort st with
    | none => simp [hi] at h
    | some p =>
      simp only [hi, Option.some.injEq, Prod.mk.injEq] at h
      obtain ⟨rfl, rfl⟩ := h
      simp [Op.isInsert, Op.isRemove, q_sort_size hi]

theorem run_size (ops : List Op) :
    ∀ (st st' : State) (rs : List (Option Bool × Option (List Nat))),
      run st ops = some (st', rs) →
      q_size st' = q_size st + successes Op.isInsert ops rs - successes Op.isRemove ops rs := by
  induction ops with
  | nil =>
    intro st st' rs h
    simp only [run, Option.some.injEq, Prod.mk.injEq] at h
    obtain ⟨rfl, rfl⟩ := h
    simp [successes_nil]
  | cons op ops ih =>
    intro st st' rs h
    simp only [run] at h
    cases hs : step st op with
    | none => simp [hs] at h
    | some p =>
      obtain ⟨sta, r⟩ := p
      simp only [hs] at h
      cases hr : run sta ops with
      | none => simp [hr] at h
      | some p2 =>
        obtain ⟨stb, rs'⟩ := p2
        simp only [hr, Option.some.injEq, Prod.mk.injEq] at h
        obtain ⟨rfl, rfl⟩ := h
        rw [ih sta stb rs' hr, step_size hs, successes_cons, successes_cons]
        push_cast
        ring

/-! ## Order facts used by the claims -/

theorem strle_antisymm {a b : List Nat} (h1 : le a b) (h2 : le b a) : a = b := by
  simp only [le] at h1 h2
  rw [strcmp_swap] at h2
  exact strcmp_eq_zero (by omega)

theorem pairwise_values {l : List (Nat × List Nat)}
    (h : l.Pairwise (fun x y => le x.2 y.2)) : (values l).Pairwise le := by
  simpa [values, List.pairwise_map] using h

theorem mergeL_right_first (as bs : List (Nat × List Nat))
    (ha : as.Pairwise (fun x y => le x.2 y.2)) (hb : bs.Pairwise (fun x y => le x.2 y.2)) :
    ∀ x ∈ as, ∀ y ∈ bs, x.2 = y.2 → List.Sublist [y, x] (mergeL as bs) := by
  induction as generalizing bs with
  | nil => intro x hx; simp at hx
  | cons a as iha =>
    induction bs with
    | nil => intro x _ y hy; simp at hy
    | cons b bs ihb =>
      intro x hx y hy hxy
      rw [mergeL_cons_cons]
      have ha' := List.pairwise_cons.1 ha
      have hb' := List.pairwise_cons.1 hb
      by_cases hc : ¬ (strcmp a.2 b.2 ≥ 0)
      · rw [if_pos hc]
        rcases List.mem_cons.1 hx with hx | hx
        · exfalso
          subst hx
          have hby : le b.2 y.2 := by
            rcases List.mem_cons.1 hy with hy | hy
            · subst hy; simp [le, strcmp_self]
            · exact hb'.1 y hy
          rw [← hxy] at hby
          simp only [le] at hby
          rw [strcmp_swap] at hby
          omega
        · exact (iha (b :: bs) ha'.2 hb x hx y hy hxy).cons a
      · rw [if_neg hc]
        rcases List.mem_cons.1 hy with hy | hy
        · subst hy
          exact (List.singleton_sublist.2 (mergeL_mem.2 (Or.inl hx))).cons₂ y
        · exact (ihb hb'.2 x hx y hy hxy).cons b

/-! ## The structural invariant and well-formed queues -/

theorem lastAddr_eq_none {l : List (Nat × List Nat)} : lastAddr l = none ↔ l = [] := by
  simp [lastAddr]

theorem firstAddr_eq_none {l : List (Nat × List Nat)} : firstAddr l = none ↔ l = [] := by
  cases l <;> simp [firstAddr]

theorem inv_iff_wf (st : State) : Inv st ↔ ∃ L, WF st L := by
  constructor
  · rintro ⟨q, hq, _, _, l, hc, hlen, htail⟩
    refine ⟨l, ?_, ?_⟩
    · rw [hq, ← chain_head hc, ← htail, hlen]
    · rw [← chain_head hc]; exact hc
  · rintro ⟨L, hq, hc⟩
    refine ⟨_, hq, ?_, ?_, L, hc, rfl, rfl⟩
    · simp only [firstAddr_eq_none]
      constructor
      · intro h; exact List.length_eq_zero.1 (by exact_mod_cast h)
      · intro h; simp [h]
    · simp only [lastAddr_eq_none]
      constructor
      · intro h; exact List.length_eq_zero.1 (by exact_mod_cast h)
      · intro h; simp [h]

/-! ## The contract: order of removal and size -/

/-- C1 (defect of `q_remove_head`): after `q_insert_tail "a"` on a new queue and
one `q_remove_head`, both calls return `true`, the only element is freed, the
count is 0 and the head is absent, but the tail reference still holds the
address of the freed element, so the structural invariant does not hold. -/
theorem C1_remove_last_leaves_stale_tail :
    run (q_new true) [Op.insert_tail (bytes "a") true true, Op.remove_head none 0] =
        some ({ heap := [none], q := some { head := none, tail := some 0, size := 0 } },
          [(some true, none), (some true, none)]) ∧
      deref [none] (some 0) = none ∧
      ¬ Inv { heap := [none], q := some { head := none, tail := some 0, size := 0 } } := by
  refine ⟨by decide, by decide, ?_⟩
  rintro ⟨q, hq, _, h2, _⟩
  simp only [Option.some.injEq] at hq
  subst hq
  simp at h2

/-- C2: inserting `v1..vn` with `q_insert_tail` into a new queue and then
calling `q_remove_head` `n` times, each time with a buffer whose capacity
exceeds the length of the value, succeeds every time, fills the buffers with
`v1, ..., vn` in that order (each followed by a zero byte), and leaves a queue
of size 0. -/
theorem C2_fifo_round_trip (vs : List (List Nat)) (bufs : List (List Nat × Nat))
    (hb : List.Forall₂ (fun v b => v.length < b.2 ∧ b.2 ≤ b.1.length ∧ b.2 < SIZE_MOD) vs bufs) :
    ∃ st, run (q_new true)
        (vs.map (fun v => Op.insert_tail v true true) ++
          bufs.map (fun b => Op.remove_head (some b.1) b.2)) =
        some (st, vs.map (fun _ => (some true, none)) ++
          List.zipWith (fun v b => (some true, some (v ++ 0 :: b.1.drop (v.length + 1)))) vs bufs) ∧
      q_size st = 0 := by
  obtain ⟨st1, L1, h1, hw1, hv1⟩ := run_insert_tails vs (q_new true) [] wf_q_new
  simp only [List.nil_append] at hw1
  subst hv1
  obtain ⟨st2, h2, hc2⟩ := run_removes L1 st1 bufs (wf_headChain hw1) hb
  exact ⟨st2, run_append h1 h2, by simpa using q_size_headChain hc2⟩

/-- Witness of C2 on the values "a", "b", "c" with buffers of four bytes. -/
theorem C2_fifo_round_trip_witness :
    ∃ st, run (q_new true)
        ([bytes "a", bytes "b", bytes "c"].map (fun v => Op.insert_tail v true true) ++
          [([7, 7, 7, 7], 4), ([7, 7, 7, 7], 4), ([7, 7, 7, 7], 4)].map
            (fun b => Op.remove_head (some b.1) b.2)) =
        some (st, [bytes "a", bytes "b", bytes "c"].map (fun _ => (some true, none)) ++
          List.zipWith (fun v b => (some true, some (v ++ 0 :: b.1.drop (v.length + 1))))
            [bytes "a", bytes "b", bytes "c"]
            [([7, 7, 7, 7], 4), ([7, 7, 7, 7], 4), ([7, 7, 7, 7], 4)]) ∧
      q_size st = 0 :=
  C2_fifo_round_trip [bytes "a", bytes "b", bytes "c"]
    [([7, 7, 7, 7], 4), ([7, 7, 7, 7], 4), ([7, 7, 7, 7], 4)]
    (List.Forall₂.cons (by decide) (List.Forall₂.cons (by decide)
      (List.Forall₂.cons (by decide) List.Forall₂.nil)))

/-- C3: inserting `v1..vn` with `q_insert_head` into a new queue and then
calling `q_remove_head` `n` times with large enough buffers succeeds every time
and fills the buffers with `vn, ..., v1`, the reverse of the insertion order. -/
theorem C3_lifo_through_head (vs : List (List Nat)) (bufs : List (List Nat × Nat))
    (hb : List.Forall₂ (fun v b => v.length < b.2 ∧ b.2 ≤ b.1.length ∧ b.2 < SIZE_MOD)
      vs.reverse bufs) :
    ∃ st, run (q_new true)
        (vs.map (fun v => Op.insert_head v true true) ++
          bufs.map (fun b => Op.remove_head (some b.1) b.2)) =
        some (st, vs.map (fun _ => (some true, none)) ++
          List.zipWith (fun v b => (some true, some (v ++ 0 :: b.1.drop (v.length + 1))))
            vs.reverse bufs) := by
  obtain ⟨st1, L1, h1, hw1, hv1⟩ :=
    run_insert_heads vs (q_new true) [] (wf_headChain wf_q_new)
  simp only [List.append_nil] at hw1
  rw [← hv1] at hb ⊢
  obtain ⟨st2, h2, _⟩ := run_removes L1 st1 bufs hw1 hb
  exact ⟨st2, run_append h1 h2⟩

/-- Witness of C3 on the values "x", "y": the removals yield "y" and then "x". -/
theorem C3_lifo_through_head_witness :
    ∃ st, run (q_new true)
        ([bytes "x", bytes "y"].map (fun v => Op.insert_head v true true) ++
          [([7, 7, 7], 3), ([7, 7, 7], 3)].map (fun b => Op.remove_head (some b.1) b.2)) =
        some (st, [bytes "x", bytes "y"].map (fun _ => (some true, none)) ++
          List.zipWith (fun v b => (some true, some (v ++ 0 :: b.1.drop (v.length + 1))))
            [bytes "x", bytes "y"].reverse [([7, 7, 7], 3), ([7, 7, 7], 3)]) :=
  C3_lifo_through_head [bytes "x", bytes "y"] [([7, 7, 7], 3), ([7, 7, 7], 3)]
    (List.Forall₂.cons (by decide) (List.Forall₂.cons (by decide) List.Forall₂.nil))

/-- On every run of public operations from a newly created queue that is
defined (no call dereferences a freed element or overruns its buffer),
`q_size` is the number of insertions that returned `true` minus the number of
removals that returned `true`; and neither `q_reverse` nor `q_sort` changes the
value of `q_size`. -/
theorem size_counts_successes_on_defined_runs (ok : Bool) (ops : List Op) (st : State)
    (rs : List (Option Bool × Option (List Nat))) (h : run (q_new ok) ops = some (st, rs)) :
    q_size st = (successes Op.isInsert ops rs : Int) - successes Op.isRemove ops rs ∧
      (∀ s s', q_reverse s = some s' → q_size s' = q_size s) ∧
      (∀ s s', q_sort s = some s' → q_size s' = q_size s) := by
  refine ⟨?_, fun _ _ h => q_reverse_size h, fun _ _ h => q_sort_size h⟩
  rw [run_size ops _ _ _ h]
  cases ok <;> simp [q_new, q_size]

/-- An instance of the count on a defined run: two successful insertions, one
failed insertion, three removals of which the last fails on the empty queue. -/
theorem size_counts_successes_example :
    q_size { heap := [none, none], q := some { head := none, tail := some 0, size := 0 } } =
        (successes Op.isInsert
          [Op.insert_head (bytes "a") true true, Op.insert_head (bytes "b") true true,
            Op.insert_tail (bytes "c") true false, Op.remove_head none 0,
            Op.remove_head none 0, Op.remove_head none 0]
          [(some true, none), (some true, none), (some false, none), (some true, none),
            (some true, none), (some false, none)] : Int) -
        successes Op.isRemove
          [Op.insert_head (bytes "a") true true, Op.insert_head (bytes "b") true true,
            Op.insert_tail (bytes "c") true false, Op.remove_head none 0,
            Op.remove_head none 0, Op.remove_head none 0]
          [(some true, none), (some true, none), (some false, none), (some true, none),
            (some true, none), (some false, none)] ∧
      (∀ s s', q_reverse s = some s' → q_size s' = q_size s) ∧
      (∀ s s', q_sort s = some s' → q_size s' = q_size s) :=
  size_counts_successes_on_defined_runs true _ _ _ (by decide)

/-- C5: on a well-formed queue `q_sort` returns, leaves a well-formed queue,
and every adjacent pair of its chain is in ascending `strcmp` order.  On the
queue built by `q_insert_tail` of "banana", "apple", "cherry" the sorted chain
reads "apple", "banana", "cherry" and the size is 3. -/
theorem C5_sort_ascending (st : State) (L : List (Nat × List Nat)) (hw : WF st L) :
    (∃ st' L', q_sort st = some st' ∧ WF st' L' ∧ Ascending L') ∧
      ∃ st3, run (q_new true)
          [Op.insert_tail (bytes "banana") true true, Op.insert_tail (bytes "apple") true true,
            Op.insert_tail (bytes "cherry") true true, Op.sort] =
          some (st3, [(some true, none), (some true, none), (some true, none), (none, none)]) ∧
        WF st3 [(1, bytes "apple"), (0, bytes "banana"), (2, bytes "cherry")] ∧
        q_size st3 = 3 := by
  constructor
  · obtain ⟨st', L', hrun, hw', _, hs, _⟩ := q_sort_spec hw
    exact ⟨st', L', hrun, hw', (pairwise_values hs).chain'⟩
  · refine ⟨{ heap := [some { value := bytes "banana", next := some 2 },
                      some { value := bytes "apple", next := some 0 },
                      some { value := bytes "cherry", next := none }],
              q := some { head := some 1, tail := some 2, size := 3 } }, ?_, ?_, ?_⟩
    · decide
    · decide
    · decide

/-- Witness of C5 on the three-element queue "banana", "apple", "cherry". -/
theorem C5_sort_ascending_witness :
    WF { heap := [some { value := bytes "banana", next := some 1 },
                  some { value := bytes "apple", next := some 2 },
                  some { value := bytes "cherry", next := none }],
         q := some { head := some 0, tail := some 2, size := 3 } }
        [(0, bytes "banana"), (1, bytes "apple"), (2, bytes "cherry")] ∧
      ∃ st' L', q_sort { heap := [some { value := bytes "banana", next := some 1 },
                                  some { value := bytes "apple", next := some 2 },
                                  some { value := bytes "cherry", next := none }],
                         q := some { head := some 0, tail := some 2, size := 3 } } = some st' ∧
        WF st' L' ∧ Ascending L' :=
  ⟨by decide,
    (C5_sort_ascending _ [(0, bytes "banana"), (1, bytes "apple"), (2, bytes "cherry")]
      (by decide)).1⟩

/-- C6: on a well-formed queue `q_sort` only reorders the elements: the chain
after the call is a permutation of the chain before it (same elements, hence
the same multiset of values) and the count is unchanged. -/
theorem C6_sort_permutes (st : State) (L : List (Nat × List Nat)) (hw : WF st L) :
    ∃ st' L', q_sort st = some st' ∧ WF st' L' ∧ L'.Perm L ∧
      (values L').Perm (values L) ∧ q_size st' = q_size st := by
  obtain ⟨st', L', hrun, hw', hp, _, _⟩ := q_sort_spec hw
  exact ⟨st', L', hrun, hw', hp, hp.map _, q_sort_size hrun⟩

/-- Witness of C6 on the two-element queue "b", "a". -/
theorem C6_sort_permutes_witness :
    WF { heap := [some { value := bytes "b", next := some 1 },
                  some { value := bytes "a", next := none }],
         q := some { head := some 0, tail := some 1, size := 2 } }
        [(0, bytes "b"), (1, bytes "a")] ∧
      ∃ st' L', q_sort { heap := [some { value := bytes "b", next := some 1 },
                                  some { value := bytes "a", next := none }],
                         q := some { head := some 0, tail := some 1, size := 2 } } = some st' ∧
        WF st' L' ∧ L'.Perm [(0, bytes "b"), (1, bytes "a")] ∧
        (values L').Perm (values [(0, bytes "b"), (1, bytes "a")]) ∧
        q_size st' = q_size { heap := [some { value := bytes "b", next := some 1 },
                                       some { value := bytes "a", next := none }],
                              q := some { head := some 0, tail := some 1, size := 2 } } :=
  ⟨by decide, C6_sort_permutes _ _ (by decide)⟩

/-- C7 as stated fails: merging the one-element chains at addresses 0 and 1,
both holding "a", gives the chain 1, 0: the element of the right argument comes
first, so the element of the left argument is not placed before it. -/
theorem C7_left_wins_counterexample :
    Chain [some { value := bytes "a", next := none }, some { value := bytes "a", next := none }]
        (some 0) [(0, bytes "a")] ∧
      Chain [some { value := bytes "a", next := none }, some { value := bytes "a", next := none }]
        (some 1) [(1, bytes "a")] ∧
      merge 2 [some { value := bytes "a", next := none }, some { value := bytes "a", next := none }]
          (some 0) (some 1) =
        some ([some { value := bytes "a", next := none },
               some { value := bytes "a", next := some 0 }], some 1) ∧
      Chain [some { value := bytes "a", next := none }, some { value := bytes "a", next := some 0 }]
        (some 1) [(1, bytes "a"), (0, bytes "a")] ∧
      ¬ List.Sublist [(0, bytes "a"), (1, bytes "a")] [(1, bytes "a"), (0, bytes "a")] := by
  refine ⟨by decide, by decide, by decide, by decide, by decide⟩

/-- C7 (amended): `merge` breaks ties in favour of its right argument.  For
ascending chains `A` (from `l1`) and `B` (from `l2`) without a common element,
`merge` returns a chain `M` in which, whenever an element `x` of `A` and an
element `y` of `B` have equal values, `y` comes before `x`. -/
theorem C7_merge_right_argument_wins (h : Heap) (l1 l2 : Option Nat)
    (A B : List (Nat × List Nat)) (fuel : Nat)
    (hA : Chain h l1 A) (hB : Chain h l2 B) (hdis : ∀ a ∈ addrs A, a ∉ addrs B)
    (hsA : (values A).Pairwise le) (hsB : (values B).Pairwise le)
    (hfuel : A.length + B.length ≤ fuel) :
    ∃ h' M, merge fuel h l1 l2 = some (h', firstAddr M) ∧ Chain h' (firstAddr M) M ∧
      ∀ x ∈ A, ∀ y ∈ B, x.2 = y.2 → List.Sublist [y, x] M := by
  obtain ⟨h', hrun, hch, _⟩ := merge_spec hA hB hdis hfuel
  refine ⟨h', mergeL A B, hrun, hch, mergeL_right_first A B ?_ ?_⟩
  · simpa [values, List.pairwise_map] using hsA
  · simpa [values, List.pairwise_map] using hsB

/-- Witness of the amended C7 on two one-element chains holding "a". -/
theorem C7_merge_right_argument_wins_witness :
    ∃ h' M, merge 2 [some { value := bytes "a", next := none },
                     some { value := bytes "a", next := none }] (some 0) (some 1) =
        some (h', firstAddr M) ∧ Chain h' (firstAddr M) M ∧
      ∀ x ∈ [(0, bytes "a")], ∀ y ∈ [(1, bytes "a")], x.2 = y.2 → List.Sublist [y, x] M :=
  C7_merge_right_argument_wins
    [some { value := bytes "a", next := none }, some { value := bytes "a", next := none }]
    (some 0) (some 1) [(0, bytes "a")] [(1, bytes "a")] 2 (by decide) (by decide) (by decide)
    (by simp [values]) (by simp [values]) (by decide)

/-- C8: on a well-formed queue `q_reverse` returns, and a second `q_reverse`
restores the state exactly: the links of every element, the head and tail
references and the count are those before the first call. -/
theorem C8_reverse_self_inverse (st : State) (L : List (Nat × List Nat)) (hw : WF st L) :
    ∃ st1, q_reverse st = some st1 ∧ WF st1 L.reverse ∧ q_reverse st1 = some st := by
  obtain ⟨st1, h1, hw1, h2⟩ := q_reverse_twice hw
  exact ⟨st1, h1, hw1, h2⟩

/-- Witness of C8 on the three-element queue "a", "b", "c". -/
theorem C8_reverse_self_inverse_witness :
    WF { heap := [some { value := bytes "a", next := some 1 },
                  some { value := bytes "b", next := some 2 },
                  some { value := bytes "c", next := none }],
         q := some { head := some 0, tail := some 2, size := 3 } }
        [(0, bytes "a"), (1, bytes "b"), (2, bytes "c")] ∧
      ∃ st1, q_reverse { heap := [some { value := bytes "a", next := some 1 },
                                  some { value := bytes "b", next := some 2 },
                                  some { value := bytes "c", next := none }],
                         q := some { head := some 0, tail := some 2, size := 3 } } = some st1 ∧
        WF st1 [(0, bytes "a"), (1, bytes "b"), (2, bytes "c")].reverse ∧
        q_reverse st1 = some { heap := [some { value := bytes "a", next := some 1 },
                                        some { value := bytes "b", next := some 2 },
                                        some { value := bytes "c", next := none }],
                               q := some { head := some 0, tail := some 2, size := 3 } } :=
  ⟨by decide, C8_reverse_self_inverse _ _ (by decide)⟩

/-- C9: on a well-formed queue with chain `L`, `q_reverse` returns a
well-formed queue whose chain is the reverse of `L` (the same elements); the
new head is the old tail, the new tail is the old head and the count is
unchanged.  On a queue with at most one element the state is unchanged. -/
theorem C9_reverse_reverses (st : State) (L : List (Nat × List Nat)) (hw : WF st L) :
    ∃ st', q_reverse st = some st' ∧ WF st' L.reverse ∧
      (∃ q q', st.q = some q ∧ st'.q = some q' ∧ q'.head = q.tail ∧ q'.tail = q.head ∧
        q'.size = q.size) ∧
      (L.length ≤ 1 → st' = st) := by
  obtain ⟨st', hrun, hw', _, hnoop⟩ := q_reverse_spec hw
  refine ⟨st', hrun, hw', ⟨_, _, hw.1, hw'.1, ?_, ?_, ?_⟩, hnoop⟩
  · exact firstAddr_reverse L
  · exact lastAddr_reverse L
  · simp

/-- Witness of C9 on the two-element queue "a", "b". -/
theorem C9_reverse_reverses_witness :
    WF { heap := [some { value := bytes "a", next := some 1 },
                  some { value := bytes "b", next := none }],
         q := some { head := some 0, tail := some 1, size := 2 } }
        [(0, bytes "a"), (1, bytes "b")] ∧
      ∃ st', q_reverse { heap := [some { value := bytes "a", next := some 1 },
                                  some { value := bytes "b", next := none }],
                         q := some { head := some 0, tail := some 1, size := 2 } } = some st' ∧
        WF st' [(0, bytes "a"), (1, bytes "b")].reverse ∧
        (∃ q q', (State.mk [some { value := bytes "a", next := some 1 },
                            some { value := bytes "b", next := none }]
                    (some { head := some 0, tail := some 1, size := 2 })).q = some q ∧
          st'.q = some q' ∧ q'.head = q.tail ∧ q'.tail = q.head ∧ q'.size = q.size) ∧
        ([(0, bytes "a"), (1, bytes "b")].length ≤ 1 →
          st' = { heap := [some { value := bytes "a", next := some 1 },
                           some { value := bytes "b", next := none }],
                  q := some { head := some 0, tail := some 1, size := 2 } }) :=
  ⟨by decide, C9_reverse_reverses _ _ (by decide)⟩

/-- C10: on a well-formed queue, the values of the chain after two calls of
`q_sort` are, in order, the values after one call. -/
theorem C10_sort_idempotent_on_values (st : State) (L : List (Nat × List Nat))
    (hw : WF st L) :
    ∃ st1 L1 st2 L2, q_sort st = some st1 ∧ WF st1 L1 ∧ q_sort st1 = some st2 ∧ WF st2 L2 ∧
      values L2 = values L1 := by
  obtain ⟨st1, L1, h1, hw1, _, hs1, _⟩ := q_sort_spec hw
  obtain ⟨st2, L2, h2, hw2, hp2, hs2, _⟩ := q_sort_spec hw1
  refine ⟨st1, L1, st2, L2, h1, hw1, h2, hw2, ?_⟩
  haveI : IsAntisymm (List Nat) le := ⟨fun _ _ h1 h2 => strle_antisymm h1 h2⟩
  have hp : (values L2).Perm (values L1) := hp2.map _
  exact List.eq_of_perm_of_sorted hp (pairwise_values hs2) (pairwise_values hs1)

/-- Witness of C10 on the queue "b", "a", "a". -/
theorem C10_sort_idempotent_on_values_witness :
    WF { heap := [some { value := bytes "b", next := some 1 },
                  some { value := bytes "a", next := some 2 },
                  some { value := bytes "a", next := none }],
         q := some { head := some 0, tail := some 2, size := 3 } }
        [(0, bytes "b"), (1, bytes "a"), (2, bytes "a")] ∧
      ∃ st1 L1 st2 L2,
        q_sort { heap := [some { value := bytes "b", next := some 1 },
                          some { value := bytes "a", next := some 2 },
                          some { value := bytes "a", next := none }],
                 q := some { head := some 0, tail := some 2, size := 3 } } = some st1 ∧
        WF st1 L1 ∧ q_sort st1 = some st2 ∧ WF st2 L2 ∧ values L2 = values L1 :=
  ⟨by decide,
    C10_sort_idempotent_on_values _ [(0, bytes "b"), (1, bytes "a"), (2, bytes "a")] (by decide)⟩

/-! ## The output buffer of `q_remove_head` -/

theorem copy_out_unfold (sp value : List Nat) (bufsize : Nat) :
    copy_out sp value bufsize =
      match memset sp 0 (fill_length value bufsize) with
      | none => none
      | some sp1 => strncpy sp1 value (realbufsize value bufsize) := rfl

theorem realbufsize_pos {v : List Nat} {k : Nat} (h1 : 1 ≤ k) (h3 : k < SIZE_MOD) :
    realbufsize v k = min v.length (k - 1) := by
  simp only [realbufsize, strlen]
  split_ifs with h
  · omega
  · have e : k + SIZE_MOD - 1 = (k - 1) + SIZE_MOD := by omega
    rw [e, Nat.add_mod_right, Nat.mod_eq_of_lt (by omega)]
    omega

theorem copy_out_trunc {buf v : List Nat} {k : Nat} (h1 : 1 ≤ k) (h2 : k ≤ buf.length)
    (h3 : k < SIZE_MOD) :
    copy_out buf v k =
      some (v.take (min v.length (k - 1)) ++ 0 :: buf.drop (min v.length (k - 1) + 1)) := by
  have hm : min v.length (k - 1) ≤ v.length := Nat.min_le_left _ _
  have hk : min v.length (k - 1) + 1 ≤ k := by
    have := Nat.min_le_right v.length (k - 1); omega
  rw [copy_out_unfold]
  simp only [fill_length, realbufsize_pos h1 h3]
  generalize min v.length (k - 1) = m at hm hk
  rw [Nat.mod_eq_of_lt (by omega)]
  simp only [memset]
  rw [if_pos (by omega)]
  simp only [strncpy, strlen]
  rw [if_pos (by simp; omega)]
  have e0 : m - v.length = 0 := by omega
  simp [e0, List.drop_append_eq_append_drop, List.replicate_succ']

theorem chain_last_next {h : Heap} {p : Option Nat} {l : List (Nat × List Nat)}
    {x : Nat × List Nat} (hc : Chain h p (l ++ [x])) :
    deref h (some x.1) = some { value := x.2, next := none } := by
  obtain ⟨q, hq⟩ := chain_suffix hc
  obtain ⟨_, n, hd, hr⟩ := chain_cons.1 hq
  rw [chain_nil.1 hr] at hd
  exact hd

/-! ## The split phase of `merge_sort` and `q_sort` with any tail -/

theorem merge_sort_split_spec {h : Heap} {head : Option Nat} {L : List (Nat × List Nat)}
    (hc : Chain h head L) (h2 : 2 ≤ L.length) :
    ∃ h1, merge_sort_split h head = some (h1, firstAddr (L.drop ((L.length + 1) / 2))) ∧
      Chain h1 head (L.take ((L.length + 1) / 2)) ∧
      Chain h1 (firstAddr (L.drop ((L.length + 1) / 2))) (L.drop ((L.length + 1) / 2)) ∧
      Frame h h1 (addrs L) := by
  have hhead := chain_head hc
  subst hhead
  have hhl := chain_length_le hc
  obtain ⟨h0a, h0d⟩ := chain_drop_step hc 0 (by omega)
  have hsplit := split_loop_spec hc h.length 0 (by omega) (by omega)
  simp only [List.drop_zero, Nat.mul_zero, Nat.zero_add] at hsplit h0a h0d
  have hk1 : (L.length + 1) / 2 = (L.length - 1) / 2 + 1 := by omega
  rw [hk1]
  generalize hk : (L.length - 1) / 2 = k at hsplit
  have hklt : k < L.length := by omega
  obtain ⟨hsl, hdsl⟩ := chain_drop_step hc k hklt
  rw [hsl] at hsplit
  obtain ⟨h1, hs1, hd1, hf1⟩ := setNext_spec none hdsl
  have hdecomp : L = L.take k ++ L[k] :: L.drop (k + 1) := by
    rw [← List.drop_eq_getElem_cons hklt, List.take_append_drop]
  have hnd := chain_nodup hc
  have hnd' : (addrs (L.take k) ++ (L[k]).1 :: addrs (L.drop (k + 1))).Nodup := by
    have : addrs L = addrs (L.take k) ++ (L[k]).1 :: addrs (L.drop (k + 1)) := by
      have e := congrArg addrs hdecomp
      rw [addrs_append] at e
      exact e
    rw [← this]; exact hnd
  obtain ⟨_, hndB, hdisAB⟩ := List.nodup_append.1 hnd'
  have hcA : Chain h1 (firstAddr L) (L.take k ++ L[k] :: []) := by
    have hc' : Chain h (firstAddr L) (L.take k ++ L[k] :: L.drop (k + 1)) := by
      rw [← hdecomp]; exact hc
    refine chain_splice (L.take k) hc' hd1 ?_ (chain_nil.2 rfl)
    intro a ha
    refine hf1.2 a ?_
    simp only [List.mem_singleton]
    rintro rfl
    exact hdisAB ha (by simp)
  have htake : L.take k ++ L[k] :: [] = L.take (k + 1) := by
    rw [← List.concat_eq_append]; exact List.take_concat_get L k hklt
  rw [htake] at hcA
  have hcB : Chain h1 (firstAddr (L.drop (k + 1))) (L.drop (k + 1)) := by
    refine chain_of_frame (chain_drop hc (k + 1)) hf1 ?_
    intro a ha
    simp only [List.mem_singleton]
    rintro rfl
    exact (List.nodup_cons.1 hndB).1 ha
  refine ⟨h1, ?_, hcA, hcB, frame_mono hf1 ?_⟩
  · simp only [merge_sort_split]
    rw [h0a] at hsplit ⊢
    simp only [h0d, hsplit, hdsl, hs1]
  · intro a ha
    simp only [List.mem_singleton] at ha
    subst ha
    exact List.mem_map.2 ⟨L[k], List.getElem_mem hklt, rfl⟩

theorem merge_sort_step {h : Heap} {head : Option Nat} {e : list_ele_t} (fuel : Nat)
    (hd : deref h head = some e) (hn : e.next ≠ none) :
    merge_sort (fuel + 1) h head =
      match merge_sort_split h head with
      | none => none
      | some (h1, fast) =>
        match merge_sort fuel h1 head with
        | none => none
        | some (h2, l1) =>
          match merge_sort fuel h2 fast with
          | none => none
          | some (h3, l2) => merge h3.length h3 l1 l2 := by
  have hh : head ≠ none := by
    rintro rfl
    simp [deref] at hd
  rw [merge_sort.eq_def]
  simp only [hh, if_false, hd, hn, merge_sort_split]
  cases split_loop h.length h head e.next with
  | none => rfl
  | some slow =>
    simp only
    cases deref h slow with
    | none => rfl
    | some es =>
      simp only
      cases setNext h slow none with
      | none => rfl
      | some h1 => rfl

theorem q_sort_headChain {st : State} {L : List (Nat × List Nat)} (hc : HeadChain st L)
    (h2 : 2 ≤ L.length) :
    ∃ st' L', q_sort st = some st' ∧ WF st' L' ∧ L'.Perm L ∧
      L'.Pairwise (fun x y => le x.2 y.2) := by
  obtain ⟨t, hq, hch⟩ := hc
  have hw : WF { heap := st.heap,
                 q := some { head := firstAddr L, tail := lastAddr L, size := (L.length : Nat) } } L :=
    ⟨rfl, hch⟩
  obtain ⟨st', L', hrun, hw', hp, hs, _⟩ := q_sort_spec hw
  refine ⟨st', L', ?_, hw', hp, hs⟩
  rw [← hrun]
  obtain ⟨h0a, h0d⟩ := chain_drop_step hch 0 (by omega)
  obtain ⟨h1a, _⟩ := chain_drop_step hch 1 (by omega)
  simp only [List.drop_zero, Nat.zero_add] at h0a h0d
  rw [h1a] at h0d
  simp only [q_sort, hq, h0a, h0d]
  simp

/-! ## The contract: failure paths and the output buffer -/

/-- C11: `q_remove_head` on a queue whose head is absent returns `false` and
leaves the state (head, tail, count, heap) and the supplied buffer exactly as
they were. -/
theorem C11_remove_head_on_empty (st : State) (q : queue_t) (sp : Option (List Nat))
    (bufsize : Nat) (hq : st.q = some q) (hh : q.head = none) :
    q_remove_head st sp bufsize = some (false, st, sp) := by
  simp [q_remove_head, hq, hh]

/-- Witness of C11 on a newly created queue with a two-byte buffer. -/
theorem C11_remove_head_on_empty_witness :
    (q_new true).q = some { head := none, tail := none, size := 0 } ∧
      q_remove_head (q_new true) (some [7, 7]) 2 = some (false, q_new true, some [7, 7]) :=
  ⟨rfl, C11_remove_head_on_empty (q_new true) { head := none, tail := none, size := 0 }
    (some [7, 7]) 2 rfl rfl⟩

/-- C12: on a non-empty queue whose head holds `v`, `q_remove_head` with a
buffer of capacity `k ≥ 1` returns `true`, removes the head, and leaves in the
buffer the first `min (strlen v) (k - 1)` bytes of `v` followed by a zero byte
(the bytes after it are untouched); a longer value is truncated. -/
theorem C12_remove_head_copies_truncated (st : State) (x : Nat × List Nat)
    (L : List (Nat × List Nat)) (buf : List Nat) (k : Nat) (hc : HeadChain st (x :: L))
    (h1 : 1 ≤ k) (h2 : k ≤ buf.length) (h3 : k < SIZE_MOD) :
    ∃ st', q_remove_head st (some buf) k =
        some (true, st', some (x.2.take (min (strlen x.2) (k - 1)) ++
          0 :: buf.drop (min (strlen x.2) (k - 1) + 1))) ∧
      HeadChain st' L :=
  q_remove_head_headChain hc (some buf) k _ (by simp [strlen, copy_out_trunc h1 h2 h3])

/-- Witness of C12: "banana" removed into a buffer of capacity 3 gives "ba". -/
theorem C12_remove_head_copies_truncated_witness :
    ∃ st', q_remove_head
        { heap := [some { value := bytes "banana", next := none }],
          q := some { head := some 0, tail := some 0, size := 1 } } (some [7, 7, 7, 7]) 3 =
        some (true, st', some (bytes "ba" ++ [0, 7])) ∧
      HeadChain st' [] :=
  C12_remove_head_copies_truncated _ (0, bytes "banana") [] [7, 7, 7, 7] 3
    ⟨some 0, rfl, by decide⟩ (by decide) (by decide) (by decide)

/-- C13 (defect, the one of C1): after `q_insert_tail "a"` and `q_remove_head`
on a new queue the count is 0 and the head is absent, but the tail still refers
to the freed element; `q_insert_tail "b"` then takes the branch for a non-empty
queue and assigns through that dangling tail, so it has no defined result and
the head is never set. -/
theorem C13_insert_tail_after_emptying :
    run (q_new true) [Op.insert_tail (bytes "a") true true, Op.remove_head none 0] =
        some ({ heap := [none], q := some { head := none, tail := some 0, size := 0 } },
          [(some true, none), (some true, none)]) ∧
      q_size { heap := [none], q := some { head := none, tail := some 0, size := 0 } } = 0 ∧
      setNext ([none] ++ [some { value := bytes "b", next := none }]) (some 0) (some 1) = none ∧
      q_insert_tail { heap := [none], q := some { head := none, tail := some 0, size := 0 } }
        (bytes "b") true true = none := by
  refine ⟨by decide, by decide, by decide, by decide⟩

/-- C14: on an absent queue `q_insert_head`, `q_insert_tail` and
`q_remove_head` return `false`, `q_size` returns 0, `q_reverse` and `q_sort`
return, and none of them changes the heap or the buffer. -/
theorem C14_null_queue (h : Heap) (s : List Nat) (okEle okVal : Bool)
    (sp : Option (List Nat)) (bufsize : Nat) :
    q_insert_head { heap := h, q := none } s okEle okVal = (false, { heap := h, q := none }) ∧
      q_insert_tail { heap := h, q := none } s okEle okVal =
        some (false, { heap := h, q := none }) ∧
      q_remove_head { heap := h, q := none } sp bufsize =
        some (false, { heap := h, q := none }, sp) ∧
      q_size { heap := h, q := none } = 0 ∧
      q_reverse { heap := h, q := none } = some { heap := h, q := none } ∧
      q_sort { heap := h, q := none } = some { heap := h, q := none } :=
  ⟨rfl, rfl, rfl, rfl, rfl, rfl⟩

/-- C15: when the allocation of the element or of its string fails,
`q_insert_head` and `q_insert_tail` return `false` and the state (head, tail,
count and every link of the chain) is exactly what it was. -/
theorem C15_insert_atomic_on_failure (st : State) (s : List Nat) (okEle okVal : Bool)
    (hfail : okEle = false ∨ okVal = false) :
    q_insert_head st s okEle okVal = (false, st) ∧
      q_insert_tail st s okEle okVal = some (false, st) := by
  simp only [q_insert_head, q_insert_tail]
  cases hq : st.q with
  | none => exact ⟨rfl, rfl⟩
  | some q =>
    rcases hfail with h | h
    · subst h; cases okVal <;> exact ⟨rfl, rfl⟩
    · subst h; cases okEle <;> exact ⟨rfl, rfl⟩

/-- Witness of C15: the string allocation fails on a one-element queue. -/
theorem C15_insert_atomic_on_failure_witness :
    q_insert_head { heap := [some { value := bytes "a", next := none }],
                    q := some { head := some 0, tail := some 0, size := 1 } }
        (bytes "b") true false =
        (false, { heap := [some { value := bytes "a", next := none }],
                  q := some { head := some 0, tail := some 0, size := 1 } }) ∧
      q_insert_tail { heap := [some { value := bytes "a", next := none }],
                      q := some { head := some 0, tail := some 0, size := 1 } }
        (bytes "b") true false =
        some (false, { heap := [some { value := bytes "a", next := none }],
                       q := some { head := some 0, tail := some 0, size := 1 } }) :=
  C15_insert_atomic_on_failure _ (bytes "b") true false (Or.inr rfl)

/-! ## The behaviour of the sorting routines -/

theorem pairwise_of_ascending {l : List (Nat × List Nat)} (h : Ascending l) :
    l.Pairwise (fun x y => le x.2 y.2) := by
  haveI : IsTrans (List Nat) le := ⟨fun _ _ _ h1 h2 => strle_trans h1 h2⟩
  have hp : (values l).Pairwise le := List.chain'_iff_pairwise.1 h
  simpa [values, List.pairwise_map] using hp

/-- C16: for ascending chains `A` (from `l1`) and `B` (from `l2`) without a
common element, `merge` returns an ascending chain that is a permutation of
`A ++ B`; and when one argument is `NULL` it returns the other argument and
leaves the heap unchanged. -/
theorem C16_merge_ascending_permutation (h : Heap) (l1 l2 : Option Nat)
    (A B : List (Nat × List Nat)) (fuel : Nat)
    (hA : Chain h l1 A) (hB : Chain h l2 B) (hdis : ∀ a ∈ addrs A, a ∉ addrs B)
    (hsA : Ascending A) (hsB : Ascending B) (hfuel : A.length + B.length ≤ fuel) :
    (∃ h' M, merge fuel h l1 l2 = some (h', firstAddr M) ∧ Chain h' (firstAddr M) M ∧
        Ascending M ∧ M.Perm (A ++ B)) ∧
      merge fuel h l1 none = some (h, l1) ∧ merge fuel h none l2 = some (h, l2) := by
  refine ⟨?_, by simp [merge], ?_⟩
  · obtain ⟨h', hrun, hch, _⟩ := merge_spec hA hB hdis hfuel
    refine ⟨h', mergeL A B, hrun, hch, ?_, mergeL_perm A B⟩
    exact (pairwise_values
      (mergeL_sorted A B (pairwise_of_ascending hsA) (pairwise_of_ascending hsB))).chain'
  · cases l2 <;> simp [merge]

/-- Witness of C16: merging the chains "a", "c" and "b". -/
theorem C16_merge_ascending_permutation_witness :
    (∃ h' M, merge 3 [some { value := bytes "a", next := some 1 },
                      some { value := bytes "c", next := none },
                      some { value := bytes "b", next := none }] (some 0) (some 2) =
          some (h', firstAddr M) ∧ Chain h' (firstAddr M) M ∧ Ascending M ∧
        M.Perm ([(0, bytes "a"), (1, bytes "c")] ++ [(2, bytes "b")])) ∧
      merge 3 [some { value := bytes "a", next := some 1 },
               some { value := bytes "c", next := none },
               some { value := bytes "b", next := none }] (some 0) none =
        some ([some { value := bytes "a", next := some 1 },
               some { value := bytes "c", next := none },
               some { value := bytes "b", next := none }], some 0) ∧
      merge 3 [some { value := bytes "a", next := some 1 },
               some { value := bytes "c", next := none },
               some { value := bytes "b", next := none }] none (some 2) =
        some ([some { value := bytes "a", next := some 1 },
               some { value := bytes "c", next := none },
               some { value := bytes "b", next := none }], some 2) :=
  C16_merge_ascending_permutation _ (some 0) (some 2) [(0, bytes "a"), (1, bytes "c")]
    [(2, bytes "b")] 3 (by decide) (by decide) (by decide)
    (show List.Pairwise le [bytes "a", bytes "c"] by decide).chain'
    (show List.Pairwise le [bytes "b"] by decide).chain' (by decide)

/-- C17: on a queue whose head chain has at least two elements, whatever its
tail reference is, `q_sort` returns a queue whose tail is the last element of
the sorted chain, and the next link of that element is absent. -/
theorem C17_sort_recomputes_tail (st : State) (L : List (Nat × List Nat))
    (hc : HeadChain st L) (h2 : 2 ≤ L.length) :
    ∃ st' q' L', q_sort st = some st' ∧ st'.q = some q' ∧ Chain st'.heap q'.head L' ∧
      L'.Perm L ∧ Ascending L' ∧ q'.tail = lastAddr L' ∧
      ∃ e, deref st'.heap q'.tail = some e ∧ e.next = none := by
  obtain ⟨st', L', hrun, hw, hp, hs⟩ := q_sort_headChain hc h2
  refine ⟨st', _, L', hrun, hw.1, hw.2, hp, (pairwise_values hs).chain', rfl, ?_⟩
  have hlen : L'.length = L.length := hp.length_eq
  rcases List.eq_nil_or_concat L' with hL | ⟨l1, x, hL⟩
  · subst hL; simp at hlen; omega
  · rw [List.concat_eq_append] at hL
    subst hL
    refine ⟨{ value := x.2, next := none }, ?_, rfl⟩
    · simp only [lastAddr_append_singleton]
      exact chain_last_next hw.2

/-- Witness of C17: a two-element queue whose tail reference is absent. -/
theorem C17_sort_recomputes_tail_witness :
    ∃ st' q' L', q_sort { heap := [some { value := bytes "b", next := some 1 },
                                   some { value := bytes "a", next := none }],
                          q := some { head := some 0, tail := none, size := 2 } } = some st' ∧
      st'.q = some q' ∧ Chain st'.heap q'.head L' ∧
      L'.Perm [(0, bytes "b"), (1, bytes "a")] ∧ Ascending L' ∧ q'.tail = lastAddr L' ∧
      ∃ e, deref st'.heap q'.tail = some e ∧ e.next = none :=
  C17_sort_recomputes_tail _ [(0, bytes "b"), (1, bytes "a")] ⟨none, rfl, by decide⟩ (by decide)

/-- C18: on a chain `L` of length `n ≥ 2` the split phase of `merge_sort`
returns; afterwards `head` starts a chain `A` of length `ceil(n/2)` and `fast`
a chain `B` of length `floor(n/2)`, both non-empty and shorter than `n`, with
`A ++ B = L`; and `merge_sort` continues from exactly this split. -/
theorem C18_split_halves (h : Heap) (head : Option Nat) (L : List (Nat × List Nat))
    (hc : Chain h head L) (h2 : 2 ≤ L.length) :
    (∃ h1 fast A B, merge_sort_split h head = some (h1, fast) ∧
        Chain h1 head A ∧ Chain h1 fast B ∧
        A.length = (L.length + 1) / 2 ∧ B.length = L.length / 2 ∧
        0 < A.length ∧ 0 < B.length ∧ A.length < L.length ∧ B.length < L.length ∧
        A ++ B = L) ∧
      ∀ fuel, merge_sort (fuel + 1) h head =
        match merge_sort_split h head with
        | none => none
        | some (h1, fast) =>
          match merge_sort fuel h1 head with
          | none => none
          | some (h2, l1) =>
            match merge_sort fuel h2 fast with
            | none => none
            | some (h3, l2) => merge h3.length h3 l1 l2 := by
  constructor
  · obtain ⟨h1, hrun, hA, hB, _⟩ := merge_sort_split_spec hc h2
    refine ⟨h1, _, _, _, hrun, hA, hB, ?_, ?_, ?_, ?_, ?_, ?_, List.take_append_drop _ _⟩
    · rw [List.length_take]; omega
    · rw [List.length_drop]; omega
    · rw [List.length_take]; omega
    · rw [List.length_drop]; omega
    · rw [List.length_take]; omega
    · rw [List.length_drop]; omega
  · intro fuel
    obtain ⟨h0a, h0d⟩ := chain_drop_step hc 0 (by omega)
    obtain ⟨h1a, _⟩ := chain_drop_step hc 1 (by omega)
    rw [h1a] at h0d
    rw [List.drop_zero, ← chain_head hc] at h0a
    rw [← h0a] at h0d
    exact merge_sort_step fuel h0d (by simp)

/-- Witness of C18 on the three-element chain "a", "b", "c". -/
theorem C18_split_halves_witness :
    (∃ h1 fast A B, merge_sort_split [some { value := bytes "a", next := some 1 },
                                      some { value := bytes "b", next := some 2 },
                                      some { value := bytes "c", next := none }] (some 0) =
          some (h1, fast) ∧
        Chain h1 (some 0) A ∧ Chain h1 fast B ∧
        A.length = ([(0, bytes "a"), (1, bytes "b"), (2, bytes "c")].length + 1) / 2 ∧
        B.length = [(0, bytes "a"), (1, bytes "b"), (2, bytes "c")].length / 2 ∧
        0 < A.length ∧ 0 < B.length ∧
        A.length < [(0, bytes "a"), (1, bytes "b"), (2, bytes "c")].length ∧
        B.length < [(0, bytes "a"), (1, bytes "b"), (2, bytes "c")].length ∧
        A ++ B = [(0, bytes "a"), (1, bytes "b"), (2, bytes "c")]) ∧
      ∀ fuel, merge_sort (fuel + 1) [some { value := bytes "a", next := some 1 },
                                     some { value := bytes "b", next := some 2 },
                                     some { value := bytes "c", next := none }] (some 0) =
        match merge_sort_split [some { value := bytes "a", next := some 1 },
                                some { value := bytes "b", next := some 2 },
                                some { value := bytes "c", next := none }] (some 0) with
        | none => none
        | some (h1, fast) =>
          match merge_sort fuel h1 (some 0) with
          | none => none
          | some (h2, l1) =>
            match merge_sort fuel h2 fast with
            | none => none
            | some (h3, l2) => merge h3.length h3 l1 l2 :=
  C18_split_halves _ (some 0) [(0, bytes "a"), (1, bytes "b"), (2, bytes "c")]
    (by decide) (by decide)

/-- C19: on a chain `L` every loop and the recursion return once the fuel
reaches the length of the chain: `merge_sort` returns, its two recursive calls
are on chains strictly shorter than `L`, the loop of `q_reverse` returns, and
`merge` with a second chain that shares no element with `L` returns.  The
number of heap cells, which the public operations supply as fuel, is at least
the length of `L`. -/
theorem C19_loops_terminate (h : Heap) (head : Option Nat) (L : List (Nat × List Nat))
    (fuel : Nat) (hc : Chain h head L) (hfuel : L.length ≤ fuel) :
    (∃ r, merge_sort fuel h head = some r) ∧
      L.length ≤ h.length ∧
      (2 ≤ L.length → ∃ h1 fast A B, merge_sort_split h head = some (h1, fast) ∧
        Chain h1 head A ∧ Chain h1 fast B ∧ A.length < L.length ∧ B.length < L.length) ∧
      (∃ r, reverse_loop fuel h head none = some r) ∧
      (∀ (l2 : Option Nat) (B : List (Nat × List Nat)) (fuel2 : Nat), Chain h l2 B →
        (∀ a ∈ addrs L, a ∉ addrs B) → L.length + B.length ≤ fuel2 →
        ∃ r, merge fuel2 h head l2 = some r) := by
  refine ⟨?_, chain_length_le hc, ?_, ?_, ?_⟩
  · obtain ⟨h', L', hrun, _⟩ := merge_sort_spec fuel h head L hc (by omega)
    exact ⟨_, hrun⟩
  · intro h2
    obtain ⟨h1, hrun, hA, hB, _⟩ := merge_sort_split_spec hc h2
    refine ⟨h1, _, _, _, hrun, hA, hB, ?_, ?_⟩
    · rw [List.length_take]; omega
    · rw [List.length_drop]; omega
  · obtain ⟨h', hrun, _⟩ :=
      reverse_loop_spec L h head none [] fuel hc (chain_nil.2 rfl) (by simp [addrs]) hfuel
    exact ⟨_, hrun⟩
  · intro l2 B fuel2 hB hdis hf2
    obtain ⟨h', hrun, _⟩ := merge_spec hc hB hdis hf2
    exact ⟨_, hrun⟩

/-- Witness of C19 on the three-element chain "c", "a", "b". -/
theorem C19_loops_terminate_witness :
    (∃ r, merge_sort 3 [some { value := bytes "c", next := some 1 },
                        some { value := bytes "a", next := some 2 },
                        some { value := bytes "b", next := none }] (some 0) = some r) ∧
      [(0, bytes "c"), (1, bytes "a"), (2, bytes "b")].length ≤
        [some { value := bytes "c", next := some 1 },
         some { value := bytes "a", next := some 2 },
         some ({ value := bytes "b", next := none } : list_ele_t)].length ∧
      (2 ≤ [(0, bytes "c"), (1, bytes "a"), (2, bytes "b")].length →
        ∃ h1 fast A B, merge_sort_split [some { value := bytes "c", next := some 1 },
                                         some { value := bytes "a", next := some 2 },
                                         some { value := bytes "b", next := none }] (some 0) =
            some (h1, fast) ∧
          Chain h1 (some 0) A ∧ Chain h1 fast B ∧
          A.length < [(0, bytes "c"), (1, bytes "a"), (2, bytes "b")].length ∧
          B.length < [(0, bytes "c"), (1, bytes "a"), (2, bytes "b")].length) ∧
      (∃ r, reverse_loop 3 [some { value := bytes "c", next := some 1 },
                            some { value := bytes "a", next := some 2 },
                            some { value := bytes "b", next := none }] (some 0) none = some r) ∧
      (∀ (l2 : Option Nat) (B : List (Nat × List Nat)) (fuel2 : Nat),
        Chain [some { value := bytes "c", next := some 1 },
               some { value := bytes "a", next := some 2 },
               some { value := bytes "b", next := none }] l2 B →
        (∀ a ∈ addrs [(0, bytes "c"), (1, bytes "a"), (2, bytes "b")], a ∉ addrs B) →
        [(0, bytes "c"), (1, bytes "a"), (2, bytes "b")].length + B.length ≤ fuel2 →
        ∃ r, merge fuel2 [some { value := bytes "c", next := some 1 },
                          some { value := bytes "a", next := some 2 },
                          some { value := bytes "b", next := none }] (some 0) l2 = some r) :=
  C19_loops_terminate _ (some 0) [(0, bytes "c"), (1, bytes "a"), (2, bytes "b")] 3
    (by decide) (by decide)

theorem q_remove_head_copy_fails {st : State} {x : Nat × List Nat}
    {L : List (Nat × List Nat)} {buf : List Nat} {k : Nat} (hc : HeadChain st (x :: L))
    (hco : copy_out buf x.2 k = none) : q_remove_head st (some buf) k = none := by
  obtain ⟨t, hq, hch⟩ := hc
  obtain ⟨_, n, hd, _⟩ := chain_cons.1 hch
  simp only [q_remove_head, hq, firstAddr_cons, hd]
  simp [hco]

theorem size_mod_ge_two : 2 ≤ SIZE_MOD := by decide

theorem realbufsize_zero (v : List Nat) : realbufsize v 0 = SIZE_MOD - 1 := by
  have h2 := size_mod_ge_two
  simp only [realbufsize, strlen]
  generalize SIZE_MOD = M at h2
  rw [if_neg (by omega), Nat.zero_add]
  exact Nat.mod_eq_of_lt (by omega)

theorem fill_length_zero (v : List Nat) : fill_length v 0 = 0 := by
  have h2 := size_mod_ge_two
  simp only [fill_length, realbufsize_zero]
  generalize SIZE_MOD = M at h2
  have e : M - 1 + 1 = M := by omega
  rw [e, Nat.mod_self]

/-- C20 as stated fails for the fill: with `bufsize = 0` the copy length is
`2^64 - 1`, but the fill length `realbufsize + 1` wraps once more, to 0, so the
`memset` of `q_remove_head` writes nothing and stays inside any buffer. -/
theorem C20_fill_length_counterexample :
    realbufsize (bytes "a") 0 = SIZE_MOD - 1 ∧ fill_length (bytes "a") 0 = 0 ∧
      memset [7, 7] 0 (fill_length (bytes "a") 0) = some [7, 7] := by
  refine ⟨by decide, by decide, by decide⟩

/-- C20 (amended): `q_remove_head` does not guard a capacity of 0.  On a
non-empty queue with a supplied buffer and `bufsize = 0` the copy length is
`bufsize - 1` in `size_t` arithmetic, that is `2^64 - 1`; the fill length
`realbufsize + 1` wraps to 0; and the copy length exceeds the capacity of the
buffer, so the copy, and with it the call, has no defined result. -/
theorem C20_bufsize_zero_wraps (st : State) (x : Nat × List Nat) (L : List (Nat × List Nat))
    (buf : List Nat) (hc : HeadChain st (x :: L)) (hcap : buf.length < SIZE_MOD - 1) :
    realbufsize x.2 0 = SIZE_MOD - 1 ∧ fill_length x.2 0 = 0 ∧
      buf.length < realbufsize x.2 0 ∧ copy_out buf x.2 0 = none ∧
      q_remove_head st (some buf) 0 = none := by
  have hr : realbufsize x.2 0 = SIZE_MOD - 1 := realbufsize_zero x.2
  have hf : fill_length x.2 0 = 0 := fill_length_zero x.2
  have hco : copy_out buf x.2 0 = none := by
    rw [copy_out_unfold, hf, hr]
    simp only [memset, Nat.zero_le, if_true, List.replicate_zero, List.nil_append,
      List.drop_zero, strncpy]
    generalize SIZE_MOD = M at hcap
    rw [if_neg (by omega)]
  exact ⟨hr, hf, by rw [hr]; exact hcap, hco, q_remove_head_copy_fails hc hco⟩

/-- Witness of the amended C20: "a" removed with a two-byte buffer and
`bufsize = 0`. -/
theorem C20_bufsize_zero_wraps_witness :
    realbufsize (0, bytes "a").2 0 = SIZE_MOD - 1 ∧ fill_length (0, bytes "a").2 0 = 0 ∧
      [7, 7].length < realbufsize (0, bytes "a").2 0 ∧
      copy_out [7, 7] (0, bytes "a").2 0 = none ∧
      q_remove_head { heap := [some { value := bytes "a", next := none }],
                      q := some { head := some 0, tail := some 0, size := 1 } }
        (some [7, 7]) 0 = none :=
  C20_bufsize_zero_wraps _ (0, bytes "a") [] [7, 7] ⟨some 0, rfl, by decide⟩ (by decide)

end Queue
